import Mathlib

/-!
Verification of the audio_sorter incremental scan and enrichment pipeline.

This file gives a shallow embedding, in Lean 4, of the parts of the
`audio_sorter` Rust program that the verified claims are about:

* the data model (`TrackMetadata`, `IndexedTrack`, the Index Store map and
  the Feature Store map), from `src/storage.rs`, `src/organizer.rs` and
  `src/analysis_store.rs`;
* the diff phase and the chunked process/merge/checkpoint loop of
  `ScanManager::run_scan_logic`, from `src/scan_manager.rs`;
* the similarity evaluator `find_similar`, from `src/recommend.rs`;
* the duplicate grouping `AudioLibrary::find_duplicates`, from
  `src/storage.rs`;
* the mono/22050 Hz conversion `DecodedAudio::to_bliss_samples` and the
  sample-format normalization `convert_to_i16`, from `src/audio_decoder.rs`;
* the filename metadata heuristic `parse_metadata_from_filename`, from
  `src/organizer.rs`;
* the base64url fingerprint encoder `base64_encode`, from
  `src/fingerprint.rs`;
* the byte-level save/load round trip of the Feature Store and an AST-level
  model of the JSON save/load of the Index Store.

Modelling conventions:

* Rust machine integers are modelled as `Nat`/`Int`, with an explicit
  `% 2 ^ w` exactly where the Rust code can wrap.
* `f32`/`f64` arithmetic is modelled exactly over `ℚ`; where a claim only
  concerns ordering (similarity distances) the square root is omitted,
  since it is strictly monotone on nonnegative values.
* Absolute paths are an opaque key type `P` with decidable equality.
* Rust `HashMap` values are modelled as association lists in iteration
  order; the iteration order itself is unspecified in Rust, which matters
  for (and only for) the store round-trip claim.
* Fallible Rust code (`Result`, early `return`) is modelled with `Option`.
-/

/-- ASCII-lowercase a character, as Rust `u8::to_ascii_lowercase` does on
the bytes compared by `str::eq_ignore_ascii_case`. -/
def asciiLower (c : Char) : Char :=
  if 'A' ≤ c ∧ c ≤ 'Z' then Char.ofNat (c.toNat + 32) else c

/-- Rust `str::eq_ignore_ascii_case`: equality after ASCII-lowercasing. -/
def eqIgnoreAsciiCase (s t : String) : Prop :=
  s.data.map asciiLower = t.data.map asciiLower

instance (s t : String) : Decidable (eqIgnoreAsciiCase s t) := by
  unfold eqIgnoreAsciiCase; infer_instance

/-- `TrackMetadata` from `src/organizer.rs`.  `duration` is `f64` in the
source, modelled as `ℚ`; genre confidences are `f32`, modelled as `ℚ`. -/
structure TrackMetadata where
  title : String
  artist : String
  album : Option String
  original_artist : Option String
  original_title : Option String
  duration : ℚ
  fingerprint : Option String
  genres : List (String × ℚ)
deriving DecidableEq

/-- `IndexedTrack` from `src/storage.rs`, over an opaque path type `P`
(absolute paths; `PathBuf` in the source). -/
structure IndexedTrack (P : Type) where
  path : P
  file_size : ℕ
  modified_time : ℕ
  scanned_at : ℕ
  metadata : TrackMetadata
deriving DecidableEq

/-- The `files` map of `AudioLibrary` (`src/storage.rs`): a `HashMap` from
path to `IndexedTrack`, modelled as an association list in iteration
order. -/
def AudioLibrary (P : Type) : Type := List (P × IndexedTrack P)

/-- The `data` map of `AnalysisStore` (`src/analysis_store.rs`): a
`HashMap` from path to `Vec<f32>`, modelled as an association list. -/
def AnalysisStore (P : Type) : Type := List (P × List ℚ)

/-- `HashMap::get`: look a key up in an association list (first match). -/
def lookupA {P β : Type} [DecidableEq P] : List (P × β) → P → Option β
  | [], _ => none
  | (k, v) :: rest, p => if k = p then some v else lookupA rest p

/-- `HashMap::insert`: replace the entry of an existing key in place, or
append a fresh entry (last-write-wins per path). -/
def insertA {P β : Type} [DecidableEq P] : List (P × β) → P → β → List (P × β)
  | [], p, b => [(p, b)]
  | (k, v) :: rest, p, b =>
    if k = p then (k, b) :: rest else (k, v) :: insertA rest p b

/-! ## Diff phase (`ScanManager::run_scan_logic`, steps 1–3, and
`run_scan` in `src/main.rs`)

`stat` models `std::fs::metadata`: for a candidate path it returns
`some (size, mtime)` on success and `none` on failure (in which case the
loop body is skipped entirely). -/

/-- The `needs_update` decision of the diff phase in
`ScanManager::run_scan_logic` (`src/scan_manager.rs`): a candidate with
current `(size, mtime)` needs reprocessing iff it is unknown to the Index
Store, its stored size or mtime differ, or the Feature Store has no
vector for it. -/
def needs_update {P : Type} [DecidableEq P] (library : AudioLibrary P)
    (analysis : AnalysisStore P) (p : P) (size mtime : ℕ) : Bool :=
  match lookupA library p with
  | some indexed =>
    if indexed.modified_time ≠ mtime ∨ indexed.file_size ≠ size then true
    else (lookupA analysis p).isNone
  | none => true

/-- The diff-phase loop of `ScanManager::run_scan_logic`: walk the
candidate list; where `stat` succeeds, push `(path, size, mtime)` onto
`files_to_process` when `needs_update` holds, otherwise bump
`skipped_count`.  Returns `(files_to_process, skipped_count)`. -/
def diff_phase {P : Type} [DecidableEq P] (stat : P → Option (ℕ × ℕ))
    (library : AudioLibrary P) (analysis : AnalysisStore P) :
    List P → List (P × ℕ × ℕ) × ℕ
  | [] => ([], 0)
  | c :: rest =>
    let r := diff_phase stat library analysis rest
    match stat c with
    | some (size, mtime) =>
      if needs_update library analysis c size mtime then
        ((c, size, mtime) :: r.1, r.2)
      else
        (r.1, r.2 + 1)
    | none => r

/-- After the diff phase the coordinator pre-counts every skipped file
into the progress counter: `p.files_processed = skipped_count`. -/
def files_processed_after_diff {P : Type} [DecidableEq P]
    (stat : P → Option (ℕ × ℕ)) (library : AudioLibrary P)
    (analysis : AnalysisStore P) (candidates : List P) : ℕ :=
  (diff_phase stat library analysis candidates).2

/-- A candidate is skipped (and pre-counted) iff its stat succeeds and
`needs_update` rejects it. -/
def skippedB {P : Type} [DecidableEq P] (stat : P → Option (ℕ × ℕ))
    (library : AudioLibrary P) (analysis : AnalysisStore P) (p : P) : Bool :=
  match stat p with
  | some (size, mtime) => ! needs_update library analysis p size mtime
  | none => false

theorem diff_phase_sel_mem {P : Type} [DecidableEq P]
    (stat : P → Option (ℕ × ℕ)) (library : AudioLibrary P)
    (analysis : AnalysisStore P) (l : List P) (c : P) :
    c ∈ (diff_phase stat library analysis l).1.map Prod.fst ↔
      c ∈ l ∧ ∃ sz mt, stat c = some (sz, mt) ∧
        needs_update library analysis c sz mt = true := by
  induction l with
  | nil => simp [diff_phase]
  | cons a rest ih =>
    simp only [diff_phase]
    rcases hs : stat a with _ | ⟨sz, mt⟩
    · simp only [ih, List.mem_cons]
      constructor
      · rintro ⟨hc, h⟩; exact ⟨Or.inr hc, h⟩
      · rintro ⟨hc | hc, h⟩
        · subst hc; rcases h with ⟨sz, mt, hst, _⟩; rw [hs] at hst; cases hst
        · exact ⟨hc, h⟩
    · by_cases hn : needs_update library analysis a sz mt = true
      · simp only [hn, if_true, List.map_cons, List.mem_cons, ih]
        constructor
        · rintro (hc | ⟨hc, h⟩)
          · subst hc; exact ⟨Or.inl rfl, sz, mt, hs, hn⟩
          · exact ⟨Or.inr hc, h⟩
        · rintro ⟨hc | hc, h⟩
          · exact Or.inl hc
          · exact Or.inr ⟨hc, h⟩
      · simp only [hn, if_false, Bool.false_eq_true, ih, List.mem_cons]
        constructor
        · rintro ⟨hc, h⟩; exact ⟨Or.inr hc, h⟩
        · rintro ⟨hc | hc, h⟩
          · subst hc; rcases h with ⟨sz2, mt2, hst, h2⟩
            rw [hs] at hst
            cases hst; exact absurd h2 hn
          · exact ⟨hc, h⟩

theorem diff_phase_skip_count {P : Type} [DecidableEq P]
    (stat : P → Option (ℕ × ℕ)) (library : AudioLibrary P)
    (analysis : AnalysisStore P) (l : List P) :
    (diff_phase stat library analysis l).2 =
      (l.filter (skippedB stat library analysis)).length := by
  induction l with
  | nil => simp [diff_phase]
  | cons a rest ih =>
    simp only [diff_phase, List.filter_cons]
    rcases hs : stat a with _ | ⟨sz, mt⟩
    · simp [skippedB, hs, ih]
    · by_cases hn : needs_update library analysis a sz mt = true
      · simp [skippedB, hs, hn, ih]
      · simp only [Bool.not_eq_true] at hn
        simp [skippedB, hs, hn, ih]

theorem needs_update_iff {P : Type} [DecidableEq P] (library : AudioLibrary P)
    (analysis : AnalysisStore P) (c : P) (sz mt : ℕ) :
    needs_update library analysis c sz mt = true ↔
      (lookupA library c = none ∨
        (∃ tr, lookupA library c = some tr ∧
          (tr.file_size ≠ sz ∨ tr.modified_time ≠ mt)) ∨
        lookupA analysis c = none) := by
  unfold needs_update
  rcases hl : lookupA library c with _ | tr
  · simp
  · by_cases hd : tr.modified_time ≠ mt ∨ tr.file_size ≠ sz
    · simp only [hd, if_true, true_iff]
      exact Or.inr (Or.inl ⟨tr, rfl, hd.symm⟩)
    · simp only [hd, if_false, Option.isNone_iff_eq_none]
      push_neg at hd
      constructor
      · intro h; exact Or.inr (Or.inr h)
      · rintro (h | ⟨tr2, htr2, h⟩ | h)
        · cases h
        · cases htr2
          rcases h with h | h
          · exact absurd hd.2 h
          · exact absurd hd.1 h
        · exact h

/-- Claim C1: in the diff phase of a scan, a candidate path whose
`fs::metadata` stat succeeds with `(size, mtime)` is selected for
reprocessing if and only if it has no entry in the loaded Index Store, or
its current size or mtime differ from the stored `file_size` /
`modified_time`, or the Feature Store has no vector for it; and all
skipped candidates are pre-counted into the `files_processed` progress
counter. -/
theorem diff_phase_selects_iff {P : Type} [DecidableEq P]
    (stat : P → Option (ℕ × ℕ)) (library : AudioLibrary P)
    (analysis : AnalysisStore P) (candidates : List P) (c : P)
    (hc : c ∈ candidates) (sz mt : ℕ) (hstat : stat c = some (sz, mt)) :
    (c ∈ (diff_phase stat library analysis candidates).1.map Prod.fst ↔
      (lookupA library c = none ∨
        (∃ tr, lookupA library c = some tr ∧
          (tr.file_size ≠ sz ∨ tr.modified_time ≠ mt)) ∨
        lookupA analysis c = none)) ∧
    files_processed_after_diff stat library analysis candidates =
      (candidates.filter (skippedB stat library analysis)).length := by
  refine ⟨?_, diff_phase_skip_count stat library analysis candidates⟩
  rw [diff_phase_sel_mem, ← needs_update_iff library analysis c sz mt]
  constructor
  · rintro ⟨_, sz2, mt2, hst, h⟩
    rw [hstat] at hst
    cases hst
    exact h
  · intro h; exact ⟨hc, sz, mt, hstat, h⟩

/-- Concrete witness for C1: a three-candidate scan where one file is
unchanged, one has a changed mtime and one is unknown. -/
def statW : ℕ → Option (ℕ × ℕ) :=
  fun p => if p = 1 then some (100, 50) else if p = 2 then some (7, 8) else none

/-- A metadata record used by concrete witnesses. -/
def metaW : TrackMetadata :=
  { title := "t", artist := "a", album := none, original_artist := none,
    original_title := none, duration := 3, fingerprint := some "fp",
    genres := [] }

def libraryW : AudioLibrary ℕ :=
  [(1, { path := 1, file_size := 100, modified_time := 50, scanned_at := 60,
         metadata := metaW })]

def analysisW : AnalysisStore ℕ := [(1, [1/2, 1/4])]

theorem diff_phase_selects_iff_witness :
    (2 : ℕ) ∈ [1, 2] ∧ statW 2 = some (7, 8) ∧
    ((2 ∈ (diff_phase statW libraryW analysisW [1, 2]).1.map Prod.fst ↔
      (lookupA libraryW 2 = none ∨
        (∃ tr, lookupA libraryW 2 = some tr ∧
          (tr.file_size ≠ 7 ∨ tr.modified_time ≠ 8)) ∨
        lookupA analysisW 2 = none)) ∧
    files_processed_after_diff statW libraryW analysisW [1, 2] =
      ([1, 2].filter (skippedB statW libraryW analysisW)).length) :=
  ⟨by decide, by decide,
    diff_phase_selects_iff statW libraryW analysisW [1, 2] 2 (by decide) 7 8
      (by decide)⟩

/-! ## Similarity evaluator (`find_similar`, `src/recommend.rs`) -/

/-- `RecommendFilters` from `src/recommend.rs`. -/
structure RecommendFilters where
  same_artist : Option String
  exclude_album : Option String
  same_album : Option String
  exclude_fingerprint : Option String
  genre : Option String

/-- `ScoredTrack` from `src/recommend.rs`.  The `f32` distance is modelled
as `WithTop ℚ`: exact rational arithmetic, with `⊤` standing for the
`f32::MAX` sentinel that mismatched vector lengths produce. -/
structure ScoredTrack (P : Type) where
  track : IndexedTrack P
  distance : WithTop ℚ

/-- `euclidean_distance` from `src/recommend.rs`.  Mismatched lengths give
the effectively-infinite sentinel (`f32::MAX`, modelled `⊤`); otherwise
the sum of squared coordinate differences.  The final square root of the
source is omitted: it is strictly monotone on nonnegative values, so every
ordering statement about distances is unaffected. -/
def euclidean_distance (a b : List ℚ) : WithTop ℚ :=
  if a.length ≠ b.length then ⊤
  else (((a.zip b).map (fun xy => (xy.1 - xy.2) ^ 2)).sum : ℚ)

/-- The candidate list of `find_similar` before sorting: the library
values with the query track excluded, the five optional filters applied
in source order, and tracks without a feature vector dropped while
scoring the rest. -/
def scored_candidates {P : Type} [DecidableEq P] (query_path : P)
    (library : AudioLibrary P) (analysis_store : AnalysisStore P)
    (filters : RecommendFilters) : List (ScoredTrack P) :=
  match lookupA analysis_store query_path with
  | none => []
  | some query_features =>
    let l0 : List (IndexedTrack P) := library.map Prod.snd
    let l1 := l0.filter (fun track => decide (track.path ≠ query_path))
    let l2 := l1.filter (fun track => filters.same_artist.elim true
      (fun a => decide (eqIgnoreAsciiCase track.metadata.artist a)))
    let l3 := l2.filter (fun track => filters.same_album.elim true
      (fun a => track.metadata.album.elim false
        (fun album => decide (eqIgnoreAsciiCase album a))))
    let l4 := l3.filter (fun track => filters.exclude_album.elim true
      (fun a => track.metadata.album.elim true
        (fun album => ! decide (eqIgnoreAsciiCase album a))))
    let l5 := l4.filter (fun track => filters.exclude_fingerprint.elim true
      (fun fp => track.metadata.fingerprint.elim true
        (fun track_fp => decide (track_fp ≠ fp))))
    let l6 := l5.filter (fun track => filters.genre.elim true
      (fun target => track.metadata.genres.any
        (fun lc => decide (eqIgnoreAsciiCase lc.1 target))))
    l6.filterMap (fun track => (lookupA analysis_store track.path).map
      (fun features => ⟨track, euclidean_distance query_features features⟩))

/-- The comparator of the final `results.sort_by` in `find_similar`: with
total (`ℚ`-exact) distances, `partial_cmp(..).unwrap_or(Equal)` sorts by
`distance ≤ distance`, and Rust `sort_by` is a stable sort, modelled by
`List.mergeSort`. -/
def distLE {P : Type} (a b : ScoredTrack P) : Bool :=
  decide (a.distance ≤ b.distance)

/-- `find_similar` from `src/recommend.rs`: empty if the query path has no
feature vector (the early return), otherwise the filtered scored
candidates stably sorted ascending by distance and truncated to `top_k`. -/
def find_similar {P : Type} [DecidableEq P] (query_path : P)
    (library : AudioLibrary P) (analysis_store : AnalysisStore P)
    (filters : RecommendFilters) (top_k : ℕ) : List (ScoredTrack P) :=
  ((scored_candidates query_path library analysis_store filters).mergeSort
    distLE).take top_k

theorem distLE_trans {P : Type} (a b c : ScoredTrack P)
    (hab : distLE a b = true) (hbc : distLE b c = true) : distLE a c = true := by
  simp only [distLE, decide_eq_true_eq] at *
  exact le_trans hab hbc

theorem distLE_total {P : Type} (a b : ScoredTrack P) :
    (distLE a b || distLE b a) = true := by
  simp only [distLE, Bool.or_eq_true, decide_eq_true_eq]
  exact le_total a.distance b.distance

theorem mem_scored_candidates_ne {P : Type} [DecidableEq P] (query_path : P)
    (library : AudioLibrary P) (analysis_store : AnalysisStore P)
    (filters : RecommendFilters) (s : ScoredTrack P)
    (hs : s ∈ scored_candidates query_path library analysis_store filters) :
    s.track.path ≠ query_path := by
  unfold scored_candidates at hs
  rcases hq : lookupA analysis_store query_path with _ | qf
  · rw [hq] at hs
    simp at hs
  · rw [hq] at hs
    simp only [List.mem_filterMap, Option.map_eq_some'] at hs
    rcases hs with ⟨track, htrack, feats, _, heq⟩
    have h1 := (List.mem_filter.mp ((List.mem_filter.mp ((List.mem_filter.mp
      ((List.mem_filter.mp ((List.mem_filter.mp ((List.mem_filter.mp
        htrack).1)).1)).1)).1)).1)).2
    rw [decide_eq_true_eq] at h1
    rw [← heq]
    exact h1

/-- Claim C3: for every query path, library, feature store, filter set and
`k`, `find_similar` never returns the query track, returns a list sorted
ascending by distance whose ties keep the candidate order (stability:
every already-sorted sublist of the candidate list survives as a sublist
of the sorted list), and returns at most `k` results (it is exactly the
stably-sorted candidate list truncated to `k`). -/
theorem find_similar_spec {P : Type} [DecidableEq P] (query_path : P)
    (library : AudioLibrary P) (analysis_store : AnalysisStore P)
    (filters : RecommendFilters) (top_k : ℕ) :
    (∀ s ∈ find_similar query_path library analysis_store filters top_k,
      s.track.path ≠ query_path) ∧
    List.Pairwise (fun a b : ScoredTrack P => a.distance ≤ b.distance)
      (find_similar query_path library analysis_store filters top_k) ∧
    (find_similar query_path library analysis_store filters top_k).length
      ≤ top_k ∧
    (∀ c : List (ScoredTrack P),
      List.Pairwise (fun a b => a.distance ≤ b.distance) c →
      c.Sublist (scored_candidates query_path library analysis_store filters) →
      c.Sublist ((scored_candidates query_path library analysis_store
        filters).mergeSort distLE)) ∧
    find_similar query_path library analysis_store filters top_k =
      ((scored_candidates query_path library analysis_store filters).mergeSort
        distLE).take top_k := by
  have hsorted := @List.sorted_mergeSort _ distLE
    (fun a b c => distLE_trans a b c) (fun a b => distLE_total a b)
    (scored_candidates query_path library analysis_store filters)
  refine ⟨?_, ?_, ?_, ?_, rfl⟩
  · intro s hs
    refine mem_scored_candidates_ne query_path library analysis_store filters
      s ?_
    have hmem := List.mem_of_mem_take hs
    exact (List.mergeSort_perm (scored_candidates query_path library
      analysis_store filters) distLE).mem_iff.mp hmem
  · have hp : List.Pairwise
        (fun a b : ScoredTrack P => a.distance ≤ b.distance)
        ((scored_candidates query_path library analysis_store
          filters).mergeSort distLE) := by
      refine hsorted.imp ?_
      intro a b h
      simpa [distLE] using h
    exact hp.sublist (List.take_sublist _ _)
  · exact List.length_take_le top_k
      ((scored_candidates query_path library analysis_store filters).mergeSort
        distLE)
  · intro c hc hsub
    refine List.sublist_mergeSort (fun a b c => distLE_trans a b c)
      (fun a b => distLE_total a b) ?_ hsub
    refine hc.imp ?_
    intro a b h
    simpa [distLE]

/-- Claim C10: if the query path itself has no feature vector in the
Feature Store, `find_similar` returns the empty list, for every library,
filter set and `k` — even when filter-matching candidates with feature
vectors exist. -/
theorem find_similar_no_query_features {P : Type} [DecidableEq P]
    (query_path : P) (library : AudioLibrary P)
    (analysis_store : AnalysisStore P) (filters : RecommendFilters)
    (top_k : ℕ) (h : lookupA analysis_store query_path = none) :
    find_similar query_path library analysis_store filters top_k = [] := by
  unfold find_similar scored_candidates
  rw [h]
  simp [List.mergeSort_nil]

/-- A filter set with every optional filter disabled. -/
def filtersW : RecommendFilters :=
  { same_artist := none, exclude_album := none, same_album := none,
    exclude_fingerprint := none, genre := none }

/-- A library containing only a candidate track (path 2) distinct from the
query (path 1). -/
def libraryW2 : AudioLibrary ℕ :=
  [(2, { path := 2, file_size := 5, modified_time := 6, scanned_at := 7,
         metadata := metaW })]

/-- A feature store holding a vector for the candidate but none for the
query. -/
def analysisW2 : AnalysisStore ℕ := [(2, [1, 2, 3])]

theorem find_similar_spec_witness :
    (∀ s ∈ find_similar 1 libraryW2 analysisW2 filtersW 2,
      s.track.path ≠ 1) ∧
    List.Pairwise (fun a b : ScoredTrack ℕ => a.distance ≤ b.distance)
      (find_similar 1 libraryW2 analysisW2 filtersW 2) ∧
    (find_similar 1 libraryW2 analysisW2 filtersW 2).length ≤ 2 ∧
    (∀ c : List (ScoredTrack ℕ),
      List.Pairwise (fun a b => a.distance ≤ b.distance) c →
      c.Sublist (scored_candidates 1 libraryW2 analysisW2 filtersW) →
      c.Sublist ((scored_candidates 1 libraryW2 analysisW2
        filtersW).mergeSort distLE)) ∧
    find_similar 1 libraryW2 analysisW2 filtersW 2 =
      ((scored_candidates 1 libraryW2 analysisW2 filtersW).mergeSort
        distLE).take 2 :=
  find_similar_spec 1 libraryW2 analysisW2 filtersW 2

theorem find_similar_no_query_features_witness :
    lookupA analysisW2 (1 : ℕ) = none ∧
    find_similar 1 libraryW2 analysisW2 filtersW 3 = [] :=
  ⟨by decide,
    find_similar_no_query_features 1 libraryW2 analysisW2 filtersW 3
      (by decide)⟩

/-! ## Duplicate grouping (`AudioLibrary::find_duplicates`, `src/storage.rs`) -/

/-- `groups.entry(fp.clone()).or_default().push(track.clone())`: append the
track to the group of its fingerprint, creating the group if absent. -/
def addToGroups {P : Type} :
    List (String × List (IndexedTrack P)) → String → IndexedTrack P →
      List (String × List (IndexedTrack P))
  | [], fp, t => [(fp, [t])]
  | (k, g) :: rest, fp, t =>
    if k = fp then (k, g ++ [t]) :: rest else (k, g) :: addToGroups rest fp t

/-- The grouping loop of `find_duplicates`: fold the library values,
grouping every fingerprinted track under its fingerprint string; tracks
with `fingerprint == None` are not grouped at all. -/
def buildGroupsGo {P : Type} (tracks : List (IndexedTrack P))
    (groups : List (String × List (IndexedTrack P))) :
    List (String × List (IndexedTrack P)) :=
  tracks.foldl (fun groups t =>
    match t.metadata.fingerprint with
    | some fp => addToGroups groups fp t
    | none => groups) groups

/-- The `groups` map of `find_duplicates` built from an empty map. -/
def buildGroups {P : Type} (tracks : List (IndexedTrack P)) :
    List (String × List (IndexedTrack P)) :=
  buildGroupsGo tracks []

/-- `AudioLibrary::find_duplicates` (`src/storage.rs`): group the library
values by fingerprint and emit exactly the groups with more than one
track. -/
def find_duplicates {P : Type} (library : AudioLibrary P) :
    List (List (IndexedTrack P)) :=
  ((buildGroups (library.map Prod.snd)).map Prod.snd).filter
    (fun g => decide (1 < g.length))

theorem addToGroups_mem {P : Type}
    (groups : List (String × List (IndexedTrack P))) (fp : String)
    (t : IndexedTrack P) (p : String × List (IndexedTrack P))
    (hp : p ∈ addToGroups groups fp t) (x : IndexedTrack P) (hx : x ∈ p.2) :
    (∃ q ∈ groups, q.1 = p.1 ∧ x ∈ q.2) ∨ (x = t ∧ p.1 = fp) := by
  induction groups with
  | nil =>
    simp only [addToGroups, List.mem_singleton] at hp
    subst hp
    simp only [List.mem_singleton] at hx
    exact Or.inr ⟨hx, rfl⟩
  | cons a rest ih =>
    rcases a with ⟨k, g⟩
    simp only [addToGroups] at hp
    by_cases hk : k = fp
    · rw [if_pos hk] at hp
      rcases List.mem_cons.mp hp with hp | hp
      · subst hp
        rcases List.mem_append.mp hx with hx | hx
        · exact Or.inl ⟨(k, g), List.mem_cons_self _ _, rfl, hx⟩
        · exact Or.inr ⟨List.mem_singleton.mp hx, hk⟩
      · exact Or.inl ⟨p, List.mem_cons_of_mem _ hp, rfl, hx⟩
    · rw [if_neg hk] at hp
      rcases List.mem_cons.mp hp with hp | hp
      · subst hp
        exact Or.inl ⟨(k, g), List.mem_cons_self _ _, rfl, hx⟩
      · rcases ih hp with ⟨q, hq, hq1, hq2⟩ | h
        · exact Or.inl ⟨q, List.mem_cons_of_mem _ hq, hq1, hq2⟩
        · exact Or.inr h

theorem addToGroups_preserve {P : Type}
    (groups : List (String × List (IndexedTrack P))) (fp : String)
    (t : IndexedTrack P) (k : String) (x : IndexedTrack P)
    (h : ∃ q ∈ groups, q.1 = k ∧ x ∈ q.2) :
    ∃ q ∈ addToGroups groups fp t, q.1 = k ∧ x ∈ q.2 := by
  induction groups with
  | nil => simp at h
  | cons a rest ih =>
    rcases a with ⟨ka, g⟩
    rcases h with ⟨q, hq, hq1, hq2⟩
    simp only [addToGroups]
    by_cases hk : ka = fp
    · rw [if_pos hk]
      rcases List.mem_cons.mp hq with hq | hq
      · subst hq
        exact ⟨(ka, g ++ [t]), List.mem_cons_self _ _, hq1,
          List.mem_append.mpr (Or.inl hq2)⟩
      · exact ⟨q, List.mem_cons_of_mem _ hq, hq1, hq2⟩
    · rw [if_neg hk]
      rcases List.mem_cons.mp hq with hq | hq
      · subst hq
        exact ⟨(ka, g), List.mem_cons_self _ _, hq1, hq2⟩
      · rcases ih ⟨q, hq, hq1, hq2⟩ with ⟨q2, hq2m, hq21, hq22⟩
        exact ⟨q2, List.mem_cons_of_mem _ hq2m, hq21, hq22⟩

theorem addToGroups_adds {P : Type}
    (groups : List (String × List (IndexedTrack P))) (fp : String)
    (t : IndexedTrack P) :
    ∃ q ∈ addToGroups groups fp t, q.1 = fp ∧ t ∈ q.2 := by
  induction groups with
  | nil => exact ⟨(fp, [t]), List.mem_singleton.mpr rfl, rfl, List.mem_singleton.mpr rfl⟩
  | cons a rest ih =>
    rcases a with ⟨ka, g⟩
    simp only [addToGroups]
    by_cases hk : ka = fp
    · rw [if_pos hk]
      exact ⟨(ka, g ++ [t]), List.mem_cons_self _ _, hk,
        List.mem_append.mpr (Or.inr (List.mem_singleton.mpr rfl))⟩
    · rw [if_neg hk]
      rcases ih with ⟨q, hq, hq1, hq2⟩
      exact ⟨q, List.mem_cons_of_mem _ hq, hq1, hq2⟩

theorem addToGroups_keys_eq {P : Type}
    (groups : List (String × List (IndexedTrack P))) (fp : String)
    (t : IndexedTrack P) :
    (addToGroups groups fp t).map Prod.fst =
      if fp ∈ groups.map Prod.fst then groups.map Prod.fst
      else groups.map Prod.fst ++ [fp] := by
  induction groups with
  | nil => simp [addToGroups]
  | cons a rest ih =>
    rcases a with ⟨k, g⟩
    simp only [addToGroups]
    by_cases hk : k = fp
    · rw [if_pos hk]
      simp [hk]
    · rw [if_neg hk]
      have hfk : ¬ fp = k := fun h => hk h.symm
      by_cases hf : fp ∈ rest.map Prod.fst
      · simp [ih, hf, hfk]
      · simp [ih, hf, hfk]

theorem addToGroups_keys {P : Type}
    (groups : List (String × List (IndexedTrack P))) (fp : String)
    (t : IndexedTrack P) (h : (groups.map Prod.fst).Nodup) :
    ((addToGroups groups fp t).map Prod.fst).Nodup := by
  rw [addToGroups_keys_eq]
  by_cases hf : fp ∈ groups.map Prod.fst
  · rw [if_pos hf]; exact h
  · rw [if_neg hf]
    simp [List.nodup_append, h, hf]

theorem buildGroupsGo_mem {P : Type} (tracks : List (IndexedTrack P))
    (groups : List (String × List (IndexedTrack P)))
    (p : String × List (IndexedTrack P)) (hp : p ∈ buildGroupsGo tracks groups)
    (x : IndexedTrack P) (hx : x ∈ p.2) :
    (∃ q ∈ groups, q.1 = p.1 ∧ x ∈ q.2) ∨
      (x ∈ tracks ∧ x.metadata.fingerprint = some p.1) := by
  induction tracks generalizing groups with
  | nil =>
    simp only [buildGroupsGo, List.foldl_nil] at hp
    exact Or.inl ⟨p, hp, rfl, hx⟩
  | cons a rest ih =>
    simp only [buildGroupsGo, List.foldl_cons] at hp
    rcases hfp : a.metadata.fingerprint with _ | fp
    · rw [hfp] at hp
      rcases ih groups hp with h | h
      · exact Or.inl h
      · exact Or.inr ⟨List.mem_cons_of_mem _ h.1, h.2⟩
    · rw [hfp] at hp
      rcases ih (addToGroups groups fp a) hp with ⟨q, hq, hq1, hq2⟩ | h
      · rcases addToGroups_mem groups fp a q hq x hq2 with ⟨r, hr, hr1, hr2⟩ | h2
        · exact Or.inl ⟨r, hr, hr1.trans hq1, hr2⟩
        · refine Or.inr ⟨?_, ?_⟩
          · rw [h2.1]; exact List.mem_cons_self _ _
          · rw [h2.1, hfp]
            exact congrArg some (h2.2.symm.trans hq1)
      · exact Or.inr ⟨List.mem_cons_of_mem _ h.1, h.2⟩

theorem buildGroupsGo_preserve {P : Type} (tracks : List (IndexedTrack P))
    (groups : List (String × List (IndexedTrack P))) (k : String)
    (x : IndexedTrack P) (h : ∃ q ∈ groups, q.1 = k ∧ x ∈ q.2) :
    ∃ q ∈ buildGroupsGo tracks groups, q.1 = k ∧ x ∈ q.2 := by
  induction tracks generalizing groups with
  | nil => simpa [buildGroupsGo] using h
  | cons a rest ih =>
    simp only [buildGroupsGo, List.foldl_cons]
    rcases hfp : a.metadata.fingerprint with _ | fp
    · exact ih groups h
    · exact ih (addToGroups groups fp a) (addToGroups_preserve groups fp a k x h)

theorem buildGroupsGo_complete {P : Type} (tracks : List (IndexedTrack P))
    (groups : List (String × List (IndexedTrack P))) (t : IndexedTrack P)
    (ht : t ∈ tracks) (f : String) (hf : t.metadata.fingerprint = some f) :
    ∃ q ∈ buildGroupsGo tracks groups, q.1 = f ∧ t ∈ q.2 := by
  induction tracks generalizing groups with
  | nil => cases ht
  | cons a rest ih =>
    simp only [buildGroupsGo, List.foldl_cons]
    rcases List.mem_cons.mp ht with hta | hta
    · subst hta
      rw [hf]
      exact buildGroupsGo_preserve rest _ f t (addToGroups_adds groups f t)
    · rcases hfp : a.metadata.fingerprint with _ | fp
      · exact ih groups hta
      · exact ih (addToGroups groups fp a) hta

theorem buildGroupsGo_keys {P : Type} (tracks : List (IndexedTrack P))
    (groups : List (String × List (IndexedTrack P)))
    (h : (groups.map Prod.fst).Nodup) :
    ((buildGroupsGo tracks groups).map Prod.fst).Nodup := by
  induction tracks generalizing groups with
  | nil => simpa [buildGroupsGo] using h
  | cons a rest ih =>
    simp only [buildGroupsGo, List.foldl_cons]
    rcases a.metadata.fingerprint with _ | fp
    · exact ih groups h
    · exact ih (addToGroups groups fp a) (addToGroups_keys groups fp a h)

theorem nodup_keys_unique {P : Type}
    (groups : List (String × List (IndexedTrack P)))
    (h : (groups.map Prod.fst).Nodup) (p q : String × List (IndexedTrack P))
    (hp : p ∈ groups) (hq : q ∈ groups) (hk : p.1 = q.1) : p = q := by
  induction groups with
  | nil => cases hp
  | cons a rest ih =>
    simp only [List.map_cons, List.nodup_cons] at h
    rcases List.mem_cons.mp hp with hp1 | hp1 <;>
      rcases List.mem_cons.mp hq with hq1 | hq1
    · rw [hp1, hq1]
    · subst hp1
      exact absurd (List.mem_map.mpr ⟨q, hq1, hk.symm⟩) h.1
    · subst hq1
      exact absurd (List.mem_map.mpr ⟨p, hp1, hk⟩) h.1
    · exact ih h.2 hp1 hq1

/-- Claim C5: among the library values, two fingerprinted tracks land in
the same fingerprint group iff their fingerprint strings are equal;
tracks without a fingerprint appear in no emitted duplicate group; and a
group is emitted by `find_duplicates` iff it holds at least two tracks. -/
theorem find_duplicates_spec {P : Type} [DecidableEq P]
    (library : AudioLibrary P) :
    (∀ t1 t2 : IndexedTrack P, t1 ∈ library.map Prod.snd →
      t2 ∈ library.map Prod.snd → ∀ f1 f2 : String,
      t1.metadata.fingerprint = some f1 → t2.metadata.fingerprint = some f2 →
      ((∃ p ∈ buildGroups (library.map Prod.snd), t1 ∈ p.2 ∧ t2 ∈ p.2) ↔
        f1 = f2)) ∧
    (∀ t : IndexedTrack P, t.metadata.fingerprint = none →
      ∀ g ∈ find_duplicates library, t ∉ g) ∧
    (∀ g, g ∈ find_duplicates library ↔
      g ∈ (buildGroups (library.map Prod.snd)).map Prod.snd ∧ 2 ≤ g.length) := by
  have hkeys := buildGroupsGo_keys (library.map Prod.snd) [] (by simp)
  refine ⟨?_, ?_, ?_⟩
  · intro t1 t2 ht1 ht2 f1 f2 hf1 hf2
    constructor
    · rintro ⟨p, hp, hp1, hp2⟩
      rcases buildGroupsGo_mem _ [] p hp t1 hp1 with h | h
      · simp at h
      · rcases buildGroupsGo_mem _ [] p hp t2 hp2 with h2 | h2
        · simp at h2
        · rw [hf1] at h
          rw [hf2] at h2
          rw [Option.some_inj.mp h.2, Option.some_inj.mp h2.2]
    · intro hf
      subst hf
      rcases buildGroupsGo_complete (library.map Prod.snd) [] t1 ht1 f1 hf1
        with ⟨p, hp, hp1, hp2⟩
      rcases buildGroupsGo_complete (library.map Prod.snd) [] t2 ht2 f1 hf2
        with ⟨q, hq, hq1, hq2⟩
      have : p = q := nodup_keys_unique _ hkeys p q hp hq (hp1.trans hq1.symm)
      exact ⟨p, hp, hp2, this ▸ hq2⟩
  · intro t ht g hg htg
    simp only [find_duplicates, List.mem_filter, List.mem_map] at hg
    rcases hg.1 with ⟨p, hp, hpg⟩
    rcases buildGroupsGo_mem _ [] p hp t (hpg ▸ htg) with h | h
    · simp at h
    · rw [ht] at h
      cases h.2
  · intro g
    simp only [find_duplicates, List.mem_filter, decide_eq_true_eq]
    exact Iff.rfl

/-- Two tracks sharing a fingerprint and one without, used as the C5
witness. -/
def trackDupA : IndexedTrack ℕ :=
  { path := 1, file_size := 1, modified_time := 1, scanned_at := 1,
    metadata := { metaW with fingerprint := some "X" } }

def trackDupB : IndexedTrack ℕ :=
  { path := 2, file_size := 2, modified_time := 2, scanned_at := 2,
    metadata := { metaW with fingerprint := some "X" } }

def trackNoFp : IndexedTrack ℕ :=
  { path := 3, file_size := 3, modified_time := 3, scanned_at := 3,
    metadata := { metaW with fingerprint := none } }

def libraryDup : AudioLibrary ℕ :=
  [(1, trackDupA), (2, trackDupB), (3, trackNoFp)]

theorem find_duplicates_spec_witness :
    trackDupA ∈ libraryDup.map Prod.snd ∧
    trackDupB ∈ libraryDup.map Prod.snd ∧
    trackDupA.metadata.fingerprint = some "X" ∧
    trackDupB.metadata.fingerprint = some "X" ∧
    ((∃ p ∈ buildGroups (libraryDup.map Prod.snd),
        trackDupA ∈ p.2 ∧ trackDupB ∈ p.2) ↔ ("X" : String) = "X") ∧
    (∀ g ∈ find_duplicates libraryDup, trackNoFp ∉ g) :=
  ⟨by decide, by decide, by decide, by decide,
    (find_duplicates_spec libraryDup).1 trackDupA trackDupB (by decide)
      (by decide) "X" "X" (by decide) (by decide),
    fun g hg => (find_duplicates_spec libraryDup).2.1 trackNoFp (by decide)
      g hg⟩

/-! ## Mono/22050 Hz conversion (`DecodedAudio::to_bliss_samples`,
`src/audio_decoder.rs`) -/

/-- `DecodedAudio` from `src/audio_decoder.rs`: interleaved `i16` samples
(modelled `ℤ`), sample rate, channel count and duration (`f64`, modelled
`ℚ`). -/
structure DecodedAudio where
  samples_i16 : List ℤ
  sample_rate : ℕ
  channels : ℕ
  duration_secs : ℚ

/-- Fuel-driven chunking; `chunksOf` instantiates the fuel with the list
length. -/
def chunksF {α : Type} : ℕ → ℕ → List α → List (List α)
  | 0, _, _ => []
  | _ + 1, _, [] => []
  | fuel + 1, n, x :: xs =>
    (x :: xs).take n :: chunksF fuel n ((x :: xs).drop n)

/-- Rust `slice::chunks(n)`: split into consecutive chunks of `n`
elements, the last chunk possibly shorter (callers guarantee `n ≥ 1`). -/
def chunksOf {α : Type} (n : ℕ) (l : List α) : List (List α) :=
  chunksF l.length n l

/-- Step 1 of `to_bliss_samples`: average the interleaved channels into a
mono float signal in [-1, 1] (`f32` arithmetic modelled exactly over
`ℚ`). -/
def mono_samples (d : DecodedAudio) : List ℚ :=
  if d.channels = 1 then
    d.samples_i16.map (fun s => (s : ℚ) / 32768)
  else
    (chunksOf d.channels d.samples_i16).map
      (fun chunk => (chunk.map (fun s => (s : ℚ))).sum /
        ((d.channels : ℚ) * 32768))

/-- One iteration of the resampling loop of `to_bliss_samples`: compute
the (floored) source position for output index `i` and linearly
interpolate, pushing nothing when the source index falls past the end. -/
def bliss_resample_step (mono : List ℚ) (ratio : ℚ) (i : ℕ) : Option ℚ :=
  let src_pos : ℚ := (i : ℚ) * ratio
  let src_idx : ℕ := ⌊src_pos⌋₊
  let frac : ℚ := src_pos - (src_idx : ℚ)
  if src_idx + 1 < mono.length then
    some (mono.getD src_idx 0 * (1 - frac) + mono.getD (src_idx + 1) 0 * frac)
  else if src_idx < mono.length then
    some (mono.getD src_idx 0)
  else none

/-- Step 2 of `to_bliss_samples` (`src/audio_decoder.rs`): if the source
rate is already 22050 Hz return the mono signal, otherwise linearly
interpolate with ratio `src_sr / 22050`; `as usize` casts of nonnegative
`f64` values are floors. -/
def to_bliss_samples (d : DecodedAudio) : List ℚ :=
  let mono := mono_samples d
  if d.sample_rate = 22050 then mono
  else
    let ratio : ℚ := (d.sample_rate : ℚ) / 22050
    let output_len : ℕ := ⌊(mono.length : ℚ) / ratio⌋₊
    (List.range output_len).filterMap (bliss_resample_step mono ratio)

theorem length_filterMap_all_some {α β : Type} (f : α → Option β)
    (l : List α) (h : ∀ x ∈ l, (f x).isSome) :
    (l.filterMap f).length = l.length := by
  induction l with
  | nil => rfl
  | cons a rest ih =>
    have ha := h a (List.mem_cons_self a rest)
    rcases hfa : f a with _ | b
    · rw [hfa] at ha; cases ha
    · simp only [List.filterMap_cons, hfa, List.length_cons]
      rw [ih (fun x hx => h x (List.mem_cons_of_mem a hx))]

theorem floor_mul_ratio (i sr : ℕ) :
    ⌊(i : ℚ) * ((sr : ℚ) / 22050)⌋₊ = i * sr / 22050 := by
  have h : (i : ℚ) * ((sr : ℚ) / 22050) = ((i * sr : ℕ) : ℚ) / ((22050 : ℕ) : ℚ) := by
    push_cast
    ring
  rw [h, Nat.floor_div_nat, Nat.floor_natCast]

/-- Claim C4: for a decoded stream with positive sample rate and at least
one channel, `to_bliss_samples` returns exactly
`floor(mono_len * 22050 / sample_rate)` samples, where `mono_len` is the
length of the channel-averaged mono signal.  (The conversion is a pure
function of the decoded audio, hence deterministic.) -/
theorem floor_div_ratio (m sr : ℕ) (hsr : 0 < sr) :
    ⌊(m : ℚ) / ((sr : ℚ) / 22050)⌋₊ = m * 22050 / sr := by
  have hs : ((sr : ℕ) : ℚ) ≠ 0 := Nat.cast_ne_zero.mpr hsr.ne'
  have h : (m : ℚ) / ((sr : ℚ) / 22050) =
      ((m * 22050 : ℕ) : ℚ) / ((sr : ℕ) : ℚ) := by
    push_cast
    field_simp
  rw [h, Nat.floor_div_nat, Nat.floor_natCast]

theorem bliss_resample_step_isSome (mono : List ℚ) (sr : ℕ) (hsr : 0 < sr)
    (i : ℕ) (hi : i < mono.length * 22050 / sr) :
    (bliss_resample_step mono ((sr : ℚ) / 22050) i).isSome := by
  unfold bliss_resample_step
  have hidx : ⌊(i : ℚ) * ((sr : ℚ) / 22050)⌋₊ = i * sr / 22050 :=
    floor_mul_ratio i sr
  have hbound : i * sr / 22050 < mono.length := by
    have h1 : (i + 1) * sr ≤ mono.length * 22050 :=
      calc (i + 1) * sr
          ≤ (mono.length * 22050 / sr) * sr := Nat.mul_le_mul_right _ hi
        _ ≤ mono.length * 22050 := Nat.div_mul_le_self _ _
    have h2 : i * sr < mono.length * 22050 := by nlinarith [hsr]
    exact (Nat.div_lt_iff_lt_mul (by norm_num : (0 : ℕ) < 22050)).mpr h2
  simp only [hidx]
  by_cases hlt : i * sr / 22050 + 1 < mono.length
  · rw [if_pos hlt]; rfl
  · rw [if_neg hlt, if_pos hbound]; rfl

/-- Claim C4: for a decoded stream with positive sample rate and at least
one channel, `to_bliss_samples` returns exactly
`floor(mono_len * 22050 / sample_rate)` samples, where `mono_len` is the
length of the channel-averaged mono signal.  (The conversion is a pure
function of the decoded audio, hence deterministic.) -/
theorem to_bliss_samples_length (d : DecodedAudio) (hsr : 0 < d.sample_rate)
    (hch : 1 ≤ d.channels) :
    (to_bliss_samples d).length =
      (mono_samples d).length * 22050 / d.sample_rate := by
  unfold to_bliss_samples
  by_cases h22 : d.sample_rate = 22050
  · rw [if_pos h22, h22]
    exact (Nat.mul_div_cancel _ (by norm_num)).symm
  · rw [if_neg h22]
    have hout := floor_div_ratio (mono_samples d).length d.sample_rate hsr
    rw [length_filterMap_all_some _ _ ?hall, List.length_range, hout]
    case hall =>
      intro i hi
      rw [List.mem_range, hout] at hi
      exact bliss_resample_step_isSome (mono_samples d) d.sample_rate hsr i hi

/-- A concrete two-channel 44100 Hz stream for the C4 witness. -/
def decodedW : DecodedAudio :=
  { samples_i16 := [1000, -1000, 2000, -2000], sample_rate := 44100,
    channels := 2, duration_secs := 0 }

theorem to_bliss_samples_length_witness :
    0 < decodedW.sample_rate ∧ 1 ≤ decodedW.channels ∧
    (to_bliss_samples decodedW).length =
      (mono_samples decodedW).length * 22050 / decodedW.sample_rate :=
  ⟨by decide, by decide, to_bliss_samples_length decodedW (by decide) (by decide)⟩

/-! ## Filename metadata heuristic (`parse_metadata_from_filename`,
`src/organizer.rs`)

Strings are modelled as `List Char` so that splitting and trimming
compute by structural recursion.  The function takes the file stem (the
source computes it with `Path::file_stem`). -/


/-- Rust `str::split(" - ")` specialised to the three-character
space-dash-space separator: scan left to right, breaking at every
leftmost, non-overlapping occurrence of the separator. -/
def splitSDSGo : List Char → List Char → List (List Char)
  | [], acc => [acc.reverse]
  | [c], acc => [(c :: acc).reverse]
  | [c, c2], acc => [(c2 :: c :: acc).reverse]
  | c :: c2 :: c3 :: rest2, acc =>
    if c = ' ' ∧ c2 = '-' ∧ c3 = ' ' then
      acc.reverse :: splitSDSGo rest2 []
    else
      splitSDSGo (c2 :: c3 :: rest2) (c :: acc)

def splitSDS (l : List Char) : List (List Char) :=
  splitSDSGo l []

/-- Rust `str::split('-')`. -/
def splitDashGo : List Char → List Char → List (List Char)
  | [], acc => [acc.reverse]
  | c :: rest, acc =>
    if c = '-' then acc.reverse :: splitDashGo rest []
    else splitDashGo rest (c :: acc)

def splitDash (l : List Char) : List (List Char) :=
  splitDashGo l []

/-- Rust `str::trim` (on the ASCII whitespace the heuristic meets):
drop whitespace from both ends. -/
def trimChars (l : List Char) : List Char :=
  ((l.dropWhile Char.isWhitespace).reverse.dropWhile Char.isWhitespace).reverse

/-- `parse_metadata_from_filename` from `src/organizer.rs`, on the file
stem: split by `" - "`; with exactly two parts they are
`(title, artist)`, trimmed.  Only when that split produced fewer than two
parts, fall back to splitting by `'-'`: with at least two parts the last
is the artist and the rest, rejoined with `'-'`, the title.  Otherwise
the whole stem is the title and the artist is unknown. -/
def parse_metadata_from_filename (stem : List Char) :
    Option (List Char) × Option (List Char) :=
  let parts := splitSDS stem
  if parts.length = 2 then
    (some (trimChars (parts.getD 0 [])), some (trimChars (parts.getD 1 [])))
  else if parts.length < 2 then
    let parts_dash := splitDash stem
    if 2 ≤ parts_dash.length then
      match parts_dash.getLast? with
      | some artist =>
        (some (trimChars (List.intercalate ['-'] parts_dash.dropLast)),
          some (trimChars artist))
      | none => (some stem, none)
    else (some stem, none)
  else (some stem, none)

/-- The heuristic as the claim (and §7 of the spec) words it: split the
stem by `" - "`; if exactly two parts they are the title and the artist;
OTHERWISE split by `'-'` and, with ≥ 2 parts, take the last as artist and
the rejoined rest as title; otherwise whole stem / unknown artist.  (No
trimming, and the dash fallback runs for any part count other than
two.) -/
def parse_filename_claimed (stem : List Char) :
    Option (List Char) × Option (List Char) :=
  let parts := splitSDS stem
  if parts.length = 2 then
    (some (parts.getD 0 []), some (parts.getD 1 []))
  else
    let parts_dash := splitDash stem
    if 2 ≤ parts_dash.length then
      (some (List.intercalate ['-'] parts_dash.dropLast),
        some (parts_dash.getLast?.getD []))
    else (some stem, none)

/-- Claim C7 counterexample: on the stem `"a - b - c"` the space-dash
split yields three parts, so the code returns the whole stem with an
unknown artist, while the heuristic as claimed would fall back to the
dash split and return title `"a - b "` and artist `" c"`. -/
theorem parse_metadata_from_filename_counterexample :
    parse_metadata_from_filename ("a - b - c").data =
      (some ("a - b - c").data, none) ∧
    parse_filename_claimed ("a - b - c").data =
      (some ("a - b ").data, some (" c").data) ∧
    parse_metadata_from_filename ("a - b - c").data ≠
      parse_filename_claimed ("a - b - c").data := by
  refine ⟨by decide, by decide, by decide⟩

/-- The claim as amended: the parts of a two-part `" - "` split are
whitespace-trimmed before becoming title and artist, and the `'-'`
fallback (whose two outputs are likewise trimmed) applies only when the
`" - "` split produced fewer than two parts; a `" - "` split into three
or more parts yields the whole stem as title and an unknown artist. -/
def parse_filename_amended (stem : List Char) :
    Option (List Char) × Option (List Char) :=
  match splitSDS stem with
  | [t, a] => (some (trimChars t), some (trimChars a))
  | [_] =>
    let parts_dash := splitDash stem
    if 2 ≤ parts_dash.length then
      match parts_dash.getLast? with
      | some artist =>
        (some (trimChars (List.intercalate ['-'] parts_dash.dropLast)),
          some (trimChars artist))
      | none => (some stem, none)
    else (some stem, none)
  | _ => (some stem, none)

theorem splitSDSGo_ne_nil : ∀ (l acc : List Char), splitSDSGo l acc ≠ []
  | [], acc => by simp [splitSDSGo]
  | [c], acc => by simp [splitSDSGo]
  | [c, c2], acc => by simp [splitSDSGo]
  | c :: c2 :: c3 :: rest2, acc => by
    simp only [splitSDSGo]
    split
    · exact List.cons_ne_nil _ _
    · exact splitSDSGo_ne_nil (c2 :: c3 :: rest2) (c :: acc)

theorem splitSDS_ne_nil (l : List Char) : splitSDS l ≠ [] :=
  splitSDSGo_ne_nil l []

/-- Claim C7 (amended): the source heuristic agrees with the amended
description on every stem. -/
theorem parse_metadata_from_filename_amended_eq (stem : List Char) :
    parse_metadata_from_filename stem = parse_filename_amended stem := by
  unfold parse_metadata_from_filename parse_filename_amended
  rcases h : splitSDS stem with _ | ⟨p1, ps⟩
  · exact absurd h (splitSDS_ne_nil stem)
  · rcases ps with _ | ⟨p2, ps2⟩
    · simp
    · rcases ps2 with _ | ⟨p3, ps3⟩
      · simp [List.getD]
      · simp

/-! ## Sample-format normalization (`convert_to_i16`,
`src/audio_decoder.rs`)

The symphonia `AudioBufferRef` is a tagged variant over sample types;
planes are per-channel sample lists.  Unsigned samples are `ℕ`, signed
samples `ℤ`, float samples `ℚ`.  `u24`/`s24` carry their `.inner()`
value (a `u32` resp. `i32` holding the 24-bit sample). -/

inductive AudioBufferRef : Type
  | U8 (planes : List (List ℕ)) (frames : ℕ)
  | U16 (planes : List (List ℕ)) (frames : ℕ)
  | U24 (planes : List (List ℕ)) (frames : ℕ)
  | U32 (planes : List (List ℕ)) (frames : ℕ)
  | S8 (planes : List (List ℤ)) (frames : ℕ)
  | S16 (planes : List (List ℤ)) (frames : ℕ)
  | S24 (planes : List (List ℤ)) (frames : ℕ)
  | S32 (planes : List (List ℤ)) (frames : ℕ)
  | F32 (planes : List (List ℚ)) (frames : ℕ)
  | F64 (planes : List (List ℚ)) (frames : ℕ)

/-- Rust `as i16` on an integer: keep the low 16 bits, two's
complement. -/
def i16cast (z : ℤ) : ℤ :=
  (z + 32768) % 65536 - 32768

/-- Rust `as i16` on a float already clamped into range: truncate toward
zero. -/
def truncQ (q : ℚ) : ℤ :=
  if 0 ≤ q then ⌊q⌋ else ⌈q⌉

/-- Rust `f32::clamp(lo, hi)` (no NaN in the exact-`ℚ` model). -/
def clampQ (lo hi q : ℚ) : ℚ :=
  min hi (max lo q)

/-- The interleaving loop shared by every branch of `convert_to_i16`:
`for frame in 0..num_frames { for ch in 0..num_channels { push ... } }`,
with `conv` the per-sample conversion of the branch. -/
def interleave {α : Type} (conv : α → ℤ) (dflt : α)
    (planes : List (List α)) (frames : ℕ) : List ℤ :=
  (List.range frames).flatMap (fun frame =>
    (List.range planes.length).map (fun ch =>
      conv ((planes.getD ch []).getD frame dflt)))

/-- The per-sample conversions exactly as written in `convert_to_i16`
(`src/audio_decoder.rs`), including the final wrapping `as i16` cast on
the integer paths; `>>` on a signed value is an arithmetic shift
(`Int.fdiv`), on an unsigned value a logical shift (`Nat` division). -/
def convS32 (x : ℤ) : ℤ := i16cast (Int.fdiv x 65536)

def convF (x : ℚ) : ℤ := truncQ (clampQ (-32768) 32767 (x * 32767))

def convU8 (x : ℕ) : ℤ := i16cast (((x : ℤ) - 128) * 256)

def convU16 (x : ℕ) : ℤ := i16cast ((x : ℤ) - 32768)

def convU24 (x : ℕ) : ℤ := i16cast (((x / 256 : ℕ) : ℤ) - 32768)

def convU32 (x : ℕ) : ℤ := i16cast (((x / 65536 : ℕ) : ℤ) - 32768)

def convS24 (x : ℤ) : ℤ := i16cast (Int.fdiv x 256)

def convS8 (x : ℤ) : ℤ := i16cast (x * 256)

/-- `convert_to_i16` from `src/audio_decoder.rs`: append the interleaved
converted samples of the decoded buffer to `output`.  The `S16`
single-channel branch copies the plane with `extend_from_slice`. -/
def convert_to_i16 (buffer : AudioBufferRef) (output : List ℤ) : List ℤ :=
  match buffer with
  | .S16 planes frames =>
    if planes.length = 1 then output ++ planes.getD 0 []
    else output ++ interleave id 0 planes frames
  | .S32 planes frames => output ++ interleave convS32 0 planes frames
  | .F32 planes frames => output ++ interleave convF 0 planes frames
  | .F64 planes frames => output ++ interleave convF 0 planes frames
  | .U8 planes frames => output ++ interleave convU8 0 planes frames
  | .U16 planes frames => output ++ interleave convU16 0 planes frames
  | .U24 planes frames => output ++ interleave convU24 0 planes frames
  | .U32 planes frames => output ++ interleave convU32 0 planes frames
  | .S24 planes frames => output ++ interleave convS24 0 planes frames
  | .S8 planes frames => output ++ interleave convS8 0 planes frames

/-- Claim C6 counterexample: the claim states U32 samples are (only)
"shifted right 16 bits", but the code additionally biases them from the
unsigned to the signed range: the U32 sample `0` converts to `-32768`,
not to `0 >> 16 = 0`.  (Shown on a one-channel, one-frame buffer.) -/
theorem convert_to_i16_counterexample :
    convert_to_i16 (.U32 [[0]] 1) [] = [-32768] ∧
    ((0 / 65536 : ℕ) : ℤ) = 0 ∧ (-32768 : ℤ) ≠ 0 := by
  refine ⟨by decide, by decide, by decide⟩

/-- The per-format rules as the amended claim words them, without any
wrapping cast: S16 copies; S32 shifts right 16; S24 shifts right 8; S8
shifts left 8; U8 and U16 are biased from the unsigned to the signed
range; U24 and U32 are shifted right 8 resp. 16 bits AND then biased
from the unsigned to the signed range; F32/F64 are scaled by 32767 and
saturated to [-32768, 32767] (then truncated to an integer). -/
def specRules (buffer : AudioBufferRef) : List ℤ :=
  match buffer with
  | .S16 planes frames => interleave id 0 planes frames
  | .S32 planes frames =>
    interleave (fun x => Int.fdiv x 65536) 0 planes frames
  | .F32 planes frames => interleave convF 0 planes frames
  | .F64 planes frames => interleave convF 0 planes frames
  | .U8 planes frames =>
    interleave (fun x : ℕ => ((x : ℤ) - 128) * 256) 0 planes frames
  | .U16 planes frames =>
    interleave (fun x : ℕ => (x : ℤ) - 32768) 0 planes frames
  | .U24 planes frames =>
    interleave (fun x => ((x / 256 : ℕ) : ℤ) - 32768) 0 planes frames
  | .U32 planes frames =>
    interleave (fun x => ((x / 65536 : ℕ) : ℤ) - 32768) 0 planes frames
  | .S24 planes frames =>
    interleave (fun x => Int.fdiv x 256) 0 planes frames
  | .S8 planes frames => interleave (fun x => x * 256) 0 planes frames

/-- Well-formedness of a decoded buffer: every plane holds `frames`
samples and every sample lies in the range of its format (guaranteed by
the symphonia sample types). -/
def bufferWF : AudioBufferRef → Prop
  | .U8 planes frames =>
    (∀ p ∈ planes, p.length = frames) ∧ ∀ p ∈ planes, ∀ x ∈ p, x < 256
  | .U16 planes frames =>
    (∀ p ∈ planes, p.length = frames) ∧ ∀ p ∈ planes, ∀ x ∈ p, x < 65536
  | .U24 planes frames =>
    (∀ p ∈ planes, p.length = frames) ∧ ∀ p ∈ planes, ∀ x ∈ p, x < 16777216
  | .U32 planes frames =>
    (∀ p ∈ planes, p.length = frames) ∧ ∀ p ∈ planes, ∀ x ∈ p, x < 4294967296
  | .S8 planes frames =>
    (∀ p ∈ planes, p.length = frames) ∧
      ∀ p ∈ planes, ∀ x ∈ p, -128 ≤ x ∧ x < 128
  | .S16 planes frames =>
    (∀ p ∈ planes, p.length = frames) ∧
      ∀ p ∈ planes, ∀ x ∈ p, -32768 ≤ x ∧ x < 32768
  | .S24 planes frames =>
    (∀ p ∈ planes, p.length = frames) ∧
      ∀ p ∈ planes, ∀ x ∈ p, -8388608 ≤ x ∧ x < 8388608
  | .S32 planes frames =>
    (∀ p ∈ planes, p.length = frames) ∧
      ∀ p ∈ planes, ∀ x ∈ p, -2147483648 ≤ x ∧ x < 2147483648
  | .F32 _ _ => True
  | .F64 _ _ => True

theorem flatMap_congr_left {α β : Type} {l : List α} {f g : α → List β}
    (h : ∀ a ∈ l, f a = g a) : l.flatMap f = l.flatMap g := by
  induction l with
  | nil => rfl
  | cons a rest ih =>
    simp only [List.flatMap_cons]
    rw [h a (List.mem_cons_self a rest),
      ih (fun x hx => h x (List.mem_cons_of_mem a hx))]

theorem interleave_congr {α : Type} (conv1 conv2 : α → ℤ) (dflt : α)
    (planes : List (List α)) (frames : ℕ)
    (h : ∀ ch < planes.length, ∀ f < frames,
      conv1 ((planes.getD ch []).getD f dflt) =
        conv2 ((planes.getD ch []).getD f dflt)) :
    interleave conv1 dflt planes frames = interleave conv2 dflt planes frames := by
  unfold interleave
  refine flatMap_congr_left ?_
  intro frame hfr
  refine List.map_congr_left ?_
  intro ch hch
  exact h ch (List.mem_range.mp hch) frame (List.mem_range.mp hfr)

theorem getD_mem_or_default {α : Type} (l : List α) (i : ℕ) (d : α) :
    l.getD i d ∈ l ∨ l.getD i d = d := by
  induction l generalizing i with
  | nil => right; rfl
  | cons x xs ih =>
    rcases i with _ | j
    · left; exact List.mem_cons_self x xs
    · rcases ih j with h | h
      · left
        rw [List.getD_cons_succ]
        exact List.mem_cons_of_mem x h
      · right
        rw [List.getD_cons_succ, h]

theorem sample_bound {α : Type} (planes : List (List α)) (ch f : ℕ)
    (dflt : α) (Q : α → Prop) (hd : Q dflt)
    (hall : ∀ p ∈ planes, ∀ x ∈ p, Q x) :
    Q ((planes.getD ch []).getD f dflt) := by
  rcases getD_mem_or_default (planes.getD ch []) f dflt with hm | he
  · rcases getD_mem_or_default planes ch [] with hp | hp
    · exact hall _ hp _ hm
    · rw [hp] at hm; cases hm
  · rw [he]; exact hd

theorem flatMap_singleton_eq_map {α β : Type} (l : List α) (g : α → β) :
    l.flatMap (fun a => [g a]) = l.map g := by
  induction l with
  | nil => rfl
  | cons a rest ih => simp [List.flatMap_cons, ih]

theorem map_getD_range {α : Type} (l : List α) (d : α) :
    (List.range l.length).map (fun i => l.getD i d) = l := by
  induction l with
  | nil => rfl
  | cons x xs ih =>
    have h2 : ((fun i => (x :: xs).getD i d) ∘ Nat.succ) =
        fun i => xs.getD i d := by
      funext i
      rfl
    rw [List.length_cons, List.range_succ_eq_map, List.map_cons, List.map_map,
      h2, ih, List.getD_cons_zero]

/-- Claim C6 (amended): on well-formed buffers, `convert_to_i16` appends
exactly the interleaved samples given by the per-format rules, with U24
and U32 biased to the signed range after their shift; all wrapping
`as i16` casts are exact on these ranges. -/
theorem convert_to_i16_spec (buffer : AudioBufferRef) (output : List ℤ)
    (hwf : bufferWF buffer) :
    convert_to_i16 buffer output = output ++ specRules buffer := by
  cases buffer with
  | S16 planes frames =>
    simp only [convert_to_i16, specRules]
    by_cases h1 : planes.length = 1
    · rw [if_pos h1]
      congr 1
      rcases planes with _ | ⟨p, rest⟩
      · simp at h1
      · rcases rest with _ | ⟨q, rest2⟩
        · have hp : p.length = frames := hwf.1 p (List.mem_cons_self p [])
          unfold interleave
          rw [show List.range ([p] : List (List ℤ)).length = [0] from rfl]
          simp only [List.map_cons, List.map_nil, List.getD_cons_zero, id_eq]
          rw [flatMap_singleton_eq_map, ← hp]
          exact (map_getD_range p 0).symm
        · simp at h1
    · rw [if_neg h1]
  | S32 planes frames =>
    simp only [convert_to_i16, specRules]
    congr 1
    refine interleave_congr _ _ _ _ _ ?_
    intro ch hch f hf
    have hx := sample_bound planes ch f 0
      (fun x => -2147483648 ≤ x ∧ x < 2147483648) (by norm_num) hwf.2
    unfold convS32 i16cast
    rw [Int.fdiv_eq_ediv _ (by norm_num)]
    omega
  | S24 planes frames =>
    simp only [convert_to_i16, specRules]
    congr 1
    refine interleave_congr _ _ _ _ _ ?_
    intro ch hch f hf
    have hx := sample_bound planes ch f 0
      (fun x => -8388608 ≤ x ∧ x < 8388608) (by norm_num) hwf.2
    unfold convS24 i16cast
    rw [Int.fdiv_eq_ediv _ (by norm_num)]
    omega
  | S8 planes frames =>
    simp only [convert_to_i16, specRules]
    congr 1
    refine interleave_congr _ _ _ _ _ ?_
    intro ch hch f hf
    have hx := sample_bound planes ch f 0
      (fun x => -128 ≤ x ∧ x < 128) (by norm_num) hwf.2
    unfold convS8 i16cast
    omega
  | U8 planes frames =>
    simp only [convert_to_i16, specRules]
    congr 1
    refine interleave_congr _ _ _ _ _ ?_
    intro ch hch f hf
    have hx := sample_bound planes ch f 0 (fun x => x < 256) (by norm_num)
      hwf.2
    unfold convU8 i16cast
    omega
  | U16 planes frames =>
    simp only [convert_to_i16, specRules]
    congr 1
    refine interleave_congr _ _ _ _ _ ?_
    intro ch hch f hf
    have hx := sample_bound planes ch f 0 (fun x => x < 65536) (by norm_num)
      hwf.2
    unfold convU16 i16cast
    omega
  | U24 planes frames =>
    simp only [convert_to_i16, specRules]
    congr 1
    refine interleave_congr _ _ _ _ _ ?_
    intro ch hch f hf
    have hx := sample_bound planes ch f 0 (fun x => x < 16777216)
      (by norm_num) hwf.2
    unfold convU24 i16cast
    omega
  | U32 planes frames =>
    simp only [convert_to_i16, specRules]
    congr 1
    refine interleave_congr _ _ _ _ _ ?_
    intro ch hch f hf
    have hx := sample_bound planes ch f 0 (fun x => x < 4294967296)
      (by norm_num) hwf.2
    unfold convU32 i16cast
    omega
  | F32 planes frames => rfl
  | F64 planes frames => rfl

/-- A two-sample mono U16 buffer for the C6 witness. -/
def bufferW : AudioBufferRef := .U16 [[0, 65535]] 2

theorem convert_to_i16_spec_witness :
    bufferWF bufferW ∧
    convert_to_i16 bufferW [] = [] ++ specRules bufferW :=
  ⟨⟨by decide, by decide⟩, convert_to_i16_spec bufferW [] ⟨by decide, by decide⟩⟩

/-! ## Process / merge / checkpoint loop (`ScanManager::run_scan_logic`,
steps 4–5, `src/scan_manager.rs`)

The work list produced by the diff phase is split into chunks of
`batch_size = 50`; each chunk is mapped through `worker::process_file`
(modelled by the oracle `worker`, `none` standing for a per-file error)
and then folded single-threadedly into the in-memory stores.  After each
chunk the loop saves both stores whenever the running `processed_c`
counter — which STARTS at `skipped_count` and counts errors too — is a
multiple of 200. -/

/-- The mutable state of the merge loop: the two in-memory stores plus the
`processed_c` and `error_c` counters. -/
structure MergeState (P : Type) where
  library : AudioLibrary P
  analysis : AnalysisStore P
  processed : ℕ
  errors : ℕ

/-- Merging a single worker result (the body of the
`for (path, size, mtime, result) in chunk_results` loop): on success the
track record replaces the library entry and a produced feature vector
replaces the store entry; on error only `error_c` is bumped; `processed_c`
is bumped either way. -/
def merge_one {P : Type} [DecidableEq P] (current_time : ℕ)
    (st : MergeState P)
    (r : P × ℕ × ℕ × Option (TrackMetadata × Option (List ℚ))) :
    MergeState P :=
  match r.2.2.2 with
  | some (meta, analysis_opt) =>
    { st with
      library := insertA st.library r.1
        ⟨r.1, r.2.1, r.2.2.1, current_time, meta⟩,
      analysis := match analysis_opt with
        | some a => insertA st.analysis r.1 a
        | none => st.analysis,
      processed := st.processed + 1 }
  | none => { st with processed := st.processed + 1, errors := st.errors + 1 }

/-- Run the workers of one chunk (the `par_iter().map(...)` of
`run_scan_logic`): pair every work item with its result. -/
def chunk_results {P : Type}
    (worker : P → Option (TrackMetadata × Option (List ℚ)))
    (chunk : List (P × ℕ × ℕ)) :
    List (P × ℕ × ℕ × Option (TrackMetadata × Option (List ℚ))) :=
  chunk.map (fun item => (item.1, item.2.1, item.2.2, worker item.1))

/-- The chunk loop of `run_scan_logic`: merge each chunk of results, then
checkpoint (persist both stores — recorded in the returned list) whenever
`processed_c % 200 == 0`. -/
def process_chunks {P : Type} [DecidableEq P] (current_time : ℕ)
    (worker : P → Option (TrackMetadata × Option (List ℚ))) :
    List (List (P × ℕ × ℕ)) → MergeState P →
    List (AudioLibrary P × AnalysisStore P) →
    MergeState P × List (AudioLibrary P × AnalysisStore P)
  | [], st, cps => (st, cps)
  | chunk :: rest, st, cps =>
    let st2 := (chunk_results worker chunk).foldl (merge_one current_time) st
    process_chunks current_time worker rest st2
      (if st2.processed % 200 = 0 then cps ++ [(st2.library, st2.analysis)]
        else cps)

/-- The whole process phase: chunk the work list by 50, start `processed_c`
at the diff phase's `skipped_count` and `error_c` at 0, and run the chunk
loop with an empty checkpoint log. -/
def process_phase {P : Type} [DecidableEq P] (current_time : ℕ)
    (worker : P → Option (TrackMetadata × Option (List ℚ))) (skipped : ℕ)
    (library0 : AudioLibrary P) (analysis0 : AnalysisStore P)
    (files_to_process : List (P × ℕ × ℕ)) :
    MergeState P × List (AudioLibrary P × AnalysisStore P) :=
  process_chunks current_time worker (chunksOf 50 files_to_process)
    ⟨library0, analysis0, skipped, 0⟩ []

/-- Merging a flat list of work items (reference semantics used to state
what the loop computes). -/
def mergeAll {P : Type} [DecidableEq P] (current_time : ℕ)
    (worker : P → Option (TrackMetadata × Option (List ℚ)))
    (items : List (P × ℕ × ℕ)) (st : MergeState P) : MergeState P :=
  (chunk_results worker items).foldl (merge_one current_time) st

/-- The checkpoints the loop must produce, in closed form: one entry for
each chunk index `i` whose post-merge processed counter is a multiple of
200, holding both stores of the state obtained by merging every result of
chunks `0..=i`. -/
def expected_checkpoints {P : Type} [DecidableEq P] (current_time : ℕ)
    (worker : P → Option (TrackMetadata × Option (List ℚ)))
    (chunks : List (List (P × ℕ × ℕ))) (st0 : MergeState P) :
    List (AudioLibrary P × AnalysisStore P) :=
  (List.range chunks.length).filterMap (fun i =>
    if (mergeAll current_time worker ((chunks.take (i + 1)).flatten)
        st0).processed % 200 = 0 then
      some ((mergeAll current_time worker ((chunks.take (i + 1)).flatten)
          st0).library,
        (mergeAll current_time worker ((chunks.take (i + 1)).flatten)
          st0).analysis)
    else none)

theorem mergeAll_append {P : Type} [DecidableEq P] (current_time : ℕ)
    (worker : P → Option (TrackMetadata × Option (List ℚ)))
    (xs ys : List (P × ℕ × ℕ)) (st : MergeState P) :
    mergeAll current_time worker (xs ++ ys) st =
      mergeAll current_time worker ys (mergeAll current_time worker xs st) := by
  unfold mergeAll chunk_results
  rw [List.map_append, List.foldl_append]

theorem mergeAll_processed {P : Type} [DecidableEq P] (current_time : ℕ)
    (worker : P → Option (TrackMetadata × Option (List ℚ)))
    (items : List (P × ℕ × ℕ)) (st : MergeState P) :
    (mergeAll current_time worker items st).processed =
      st.processed + items.length := by
  induction items generalizing st with
  | nil => rfl
  | cons a rest ih =>
    unfold mergeAll chunk_results at ih ⊢
    rw [List.map_cons, List.foldl_cons, ih]
    have h : ∀ st2 : MergeState P,
        (merge_one current_time st2 (a.1, a.2.1, a.2.2, worker a.1)).processed =
          st2.processed + 1 := by
      intro st2
      unfold merge_one
      rcases worker a.1 with _ | ⟨meta, aopt⟩
      · rfl
      · rfl
    rw [h st, List.length_cons]
    omega

theorem chunksF_flatten {α : Type} (fuel n : ℕ) (l : List α)
    (hf : l.length ≤ fuel) (hn : 0 < n) : (chunksF fuel n l).flatten = l := by
  induction fuel generalizing l with
  | zero =>
    rw [List.length_eq_zero.mp (Nat.le_zero.mp hf)]
    rfl
  | succ fuel ih =>
    rcases l with _ | ⟨x, xs⟩
    · rfl
    · simp only [chunksF, List.flatten_cons]
      rw [ih ((x :: xs).drop n) ?_]
      · exact List.take_append_drop n (x :: xs)
      · simp only [List.length_drop, List.length_cons]
        simp only [List.length_cons] at hf
        omega

theorem chunksOf_flatten {α : Type} (n : ℕ) (l : List α) (hn : 0 < n) :
    (chunksOf n l).flatten = l :=
  chunksF_flatten l.length n l le_rfl hn

theorem filterMap_cons_toList {α β : Type} (f : α → Option β) (a : α)
    (l : List α) :
    List.filterMap f (a :: l) = (f a).toList ++ List.filterMap f l := by
  rcases h : f a with _ | b
  · rw [List.filterMap_cons_none h]
    rfl
  · rw [List.filterMap_cons_some h]
    rfl

theorem expected_checkpoints_cons {P : Type} [DecidableEq P]
    (current_time : ℕ)
    (worker : P → Option (TrackMetadata × Option (List ℚ)))
    (c : List (P × ℕ × ℕ)) (rest : List (List (P × ℕ × ℕ)))
    (st : MergeState P) :
    expected_checkpoints current_time worker (c :: rest) st =
      (if (mergeAll current_time worker c st).processed % 200 = 0 then
        [((mergeAll current_time worker c st).library,
          (mergeAll current_time worker c st).analysis)]
      else []) ++
        expected_checkpoints current_time worker rest
          (mergeAll current_time worker c st) := by
  unfold expected_checkpoints
  rw [List.length_cons, List.range_succ_eq_map]
  have htake0 : ((c :: rest).take 1).flatten = c := by simp
  have hcomp : ∀ i : ℕ,
      mergeAll current_time worker ((( c :: rest).take (i + 1 + 1)).flatten) st =
        mergeAll current_time worker ((rest.take (i + 1)).flatten)
          (mergeAll current_time worker c st) := by
    intro i
    rw [List.take_succ_cons, List.flatten_cons, mergeAll_append]
  have htail : List.filterMap
      ((fun i =>
        if (mergeAll current_time worker (((c :: rest).take (i + 1)).flatten)
            st).processed % 200 = 0 then
          some ((mergeAll current_time worker
              (((c :: rest).take (i + 1)).flatten) st).library,
            (mergeAll current_time worker (((c :: rest).take (i + 1)).flatten)
              st).analysis)
        else none) ∘ Nat.succ) (List.range rest.length) =
      List.filterMap (fun i =>
        if (mergeAll current_time worker ((rest.take (i + 1)).flatten)
            (mergeAll current_time worker c st)).processed % 200 = 0 then
          some ((mergeAll current_time worker ((rest.take (i + 1)).flatten)
              (mergeAll current_time worker c st)).library,
            (mergeAll current_time worker ((rest.take (i + 1)).flatten)
              (mergeAll current_time worker c st)).analysis)
        else none) (List.range rest.length) := by
    refine List.filterMap_congr ?_
    intro i hi
    simp only [Function.comp]
    rw [hcomp i]
  rw [filterMap_cons_toList, List.filterMap_map, htail]
  simp only [Nat.zero_add, htake0]
  by_cases h0 : (mergeAll current_time worker c st).processed % 200 = 0
  · rw [if_pos h0, if_pos h0]
    rfl
  · rw [if_neg h0, if_neg h0]
    rfl

theorem process_chunks_spec {P : Type} [DecidableEq P] (current_time : ℕ)
    (worker : P → Option (TrackMetadata × Option (List ℚ)))
    (chunks : List (List (P × ℕ × ℕ))) (st : MergeState P)
    (cps : List (AudioLibrary P × AnalysisStore P)) :
    process_chunks current_time worker chunks st cps =
      (mergeAll current_time worker chunks.flatten st,
        cps ++ expected_checkpoints current_time worker chunks st) := by
  induction chunks generalizing st cps with
  | nil =>
    simp [process_chunks, expected_checkpoints, mergeAll, chunk_results]
  | cons c rest ih =>
    simp only [process_chunks]
    rw [ih]
    have hst2 : (chunk_results worker c).foldl (merge_one current_time) st =
        mergeAll current_time worker c st := rfl
    rw [hst2]
    have hflat : (c :: rest).flatten = c ++ rest.flatten := rfl
    rw [hflat, mergeAll_append, expected_checkpoints_cons]
    by_cases h0 : (mergeAll current_time worker c st).processed % 200 = 0
    · rw [if_pos h0, if_pos h0]
      simp [List.append_assoc]
    · rw [if_neg h0, if_neg h0]
      simp

/-- Claim C2 (amended): during the process phase the coordinator saves
both stores at the end of a 50-file chunk exactly when the running
processed counter — the pre-counted skipped files plus every merged
result, successes and failures alike — is a multiple of 200; every such
checkpoint contains precisely the stores obtained by merging all results
produced before it; chunking partitions the work list, and the counter
after merging a list of items is the initial count plus its length. -/
theorem process_phase_checkpoints {P : Type} [DecidableEq P]
    (current_time : ℕ)
    (worker : P → Option (TrackMetadata × Option (List ℚ))) (skipped : ℕ)
    (library0 : AudioLibrary P) (analysis0 : AnalysisStore P)
    (files_to_process : List (P × ℕ × ℕ)) :
    (process_phase current_time worker skipped library0 analysis0
        files_to_process).2 =
      expected_checkpoints current_time worker (chunksOf 50 files_to_process)
        ⟨library0, analysis0, skipped, 0⟩ ∧
    (process_phase current_time worker skipped library0 analysis0
        files_to_process).1 =
      mergeAll current_time worker files_to_process
        ⟨library0, analysis0, skipped, 0⟩ ∧
    (chunksOf 50 files_to_process).flatten = files_to_process ∧
    (∀ items : List (P × ℕ × ℕ), ∀ st : MergeState P,
      (mergeAll current_time worker items st).processed =
        st.processed + items.length) := by
  have hflat := chunksOf_flatten 50 files_to_process (by norm_num)
  refine ⟨?_, ?_, hflat, fun items st =>
    mergeAll_processed current_time worker items st⟩
  · unfold process_phase
    rw [process_chunks_spec]
    simp
  · unfold process_phase
    rw [process_chunks_spec]
    simp [hflat]

/-- A worker that succeeds on every file (no feature vector, metadata
`metaW`). -/
def workerW : ℕ → Option (TrackMetadata × Option (List ℚ)) :=
  fun _ => some (metaW, none)

/-- A work list of 200 distinct files. -/
def filesW : List (ℕ × ℕ × ℕ) :=
  (List.range 200).map (fun i => (i, 0, 0))

set_option maxRecDepth 4000 in
/-- Claim C2 counterexample: starting from one pre-counted skipped file,
a scan that successfully processes 200 files issues NO checkpoint at all —
the counter visits 51, 101, 151 and 201 at the chunk boundaries, never a
multiple of 200 — although 200 files were successfully processed, so "a
checkpoint after every 200 successfully processed files" fails (and a
crash at the end of such a run loses more than 200 files of work). -/
theorem process_phase_counterexample :
    (process_phase 0 workerW 1 [] [] filesW).2 = [] ∧
    (process_phase 0 workerW 1 [] [] filesW).1.processed = 201 ∧
    (process_phase 0 workerW 1 [] [] filesW).1.errors = 0 := by
  refine ⟨rfl, rfl, rfl⟩

/-! ## Base64url fingerprint encoding (`base64_encode`,
`src/fingerprint.rs`)

The encoder is embedded byte-for-byte from the source: a `u32` bit
buffer (wrapping arithmetic made explicit with `% 2^32`), a bit counter,
six bits emitted while at least six are buffered, and a final
zero-padded partial character.  The decoder the claim compares against
is not part of `src/`; it is modelled from the spec (§4.3/§8: the
base64url alphabet A–Z a–z 0–9 '-' '_', no padding). -/

/-- The URL-safe alphabet of `base64_encode`. -/
def ALPHABET : List Char :=
  ("ABCDEFGHIJKLMNOPQRSTUVWXYZabcdefghijklmnopqrstuvwxyz0123456789-_").data

/-- The inner `while bits >= 6` loop of `base64_encode`: emit
`(buffer >> bits) & 0x3F` after `bits -= 6`, until fewer than six bits
remain.  Returns the emitted 6-bit indices and the final bit count. -/
def emitLoop (buffer : ℕ) : ℕ → List ℕ × ℕ
  | bits =>
    if h : 6 ≤ bits then
      ((buffer >>> (bits - 6)) % 64 :: (emitLoop buffer (bits - 6)).1,
        (emitLoop buffer (bits - 6)).2)
    else ([], bits)
termination_by bits => bits
decreasing_by all_goals omega

/-- The byte loop of `base64_encode`: shift each byte into the wrapping
`u32` buffer (`buffer = (buffer << 8) | byte`), add 8 to the bit count
and drain with `emitLoop`.  Returns all emitted indices plus the final
buffer and bit count. -/
def encodeGo : List ℕ → ℕ → ℕ → List ℕ × ℕ × ℕ
  | [], buffer, bits => ([], buffer, bits)
  | byte :: rest, buffer, bits =>
    let buffer2 := (buffer * 256) % 4294967296 + byte
    let e := emitLoop buffer2 (bits + 8)
    let g := encodeGo rest buffer2 e.2
    (e.1 ++ g.1, g.2)

/-- The final partial character of `base64_encode`
(`buffer <<= 6 - bits; buffer & 0x3F`), appended when bits remain. -/
def finishIdxs : List ℕ × ℕ × ℕ → List ℕ
  | (idxs, bufferF, bitsF) =>
    idxs ++
      (if 0 < bitsF then [((bufferF * 2 ^ (6 - bitsF)) % 4294967296) % 64]
      else [])

/-- All 6-bit indices of `base64_encode`, including the final partial
character. -/
def encodeIdxs (data : List ℕ) (buffer : ℕ) : List ℕ :=
  finishIdxs (encodeGo data buffer 0)

/-- `base64_encode` from `src/fingerprint.rs`: the emitted indices mapped
through the alphabet. -/
def base64_encode (data : List ℕ) : List Char :=
  (encodeIdxs data 0).map (fun idx => ALPHABET.getD idx ' ')

/-- Modelled from the spec: the value of a character under the §4.3
base64url alphabet (`none` for a character outside the alphabet). -/
def charValue (c : Char) : Option ℕ :=
  ALPHABET.findIdx? (fun a => a == c)

/-- Modelled from the spec: reassemble bytes from 6-bit values, four
values per three bytes, with unpadded tails of two or three values giving
one or two bytes (a single trailing value cannot occur in unpadded
base64). -/
def decodeVals : List ℕ → Option (List ℕ)
  | [] => some []
  | [_] => none
  | [v1, v2] => some [v1 * 4 + v2 / 16]
  | [v1, v2, v3] => some [v1 * 4 + v2 / 16, (v2 % 16) * 16 + v3 / 4]
  | v1 :: v2 :: v3 :: v4 :: rest =>
    (decodeVals rest).map
      (fun bs => (v1 * 4 + v2 / 16) :: ((v2 % 16) * 16 + v3 / 4) ::
        ((v3 % 4) * 64 + v4) :: bs)

/-- Modelled from the spec: the base64url decoder corresponding to
`base64_encode` — map characters to their alphabet values, failing on a
foreign character, then reassemble the bytes. -/
def mapValues : List Char → Option (List ℕ)
  | [] => some []
  | c :: rest =>
    (charValue c).bind (fun v => (mapValues rest).map (fun vs => v :: vs))

def base64_decode (s : List Char) : Option (List ℕ) :=
  (mapValues s).bind decodeVals

theorem emitLoop_stop (buffer bits : ℕ) (h : bits < 6) :
    emitLoop buffer bits = ([], bits) := by
  rw [emitLoop]
  rw [dif_neg (by omega)]

theorem emitLoop_step (buffer bits : ℕ) (h : 6 ≤ bits) :
    emitLoop buffer bits =
      ((buffer >>> (bits - 6)) % 64 :: (emitLoop buffer (bits - 6)).1,
        (emitLoop buffer (bits - 6)).2) := by
  rw [emitLoop]
  rw [dif_pos h]

theorem emitLoop_8 (buffer : ℕ) :
    emitLoop buffer 8 = ([(buffer / 4) % 64], 2) := by
  rw [emitLoop_step buffer 8 (by norm_num)]
  norm_num [emitLoop_stop buffer 2 (by norm_num), Nat.shiftRight_eq_div_pow]

theorem emitLoop_10 (buffer : ℕ) :
    emitLoop buffer 10 = ([(buffer / 16) % 64], 4) := by
  rw [emitLoop_step buffer 10 (by norm_num)]
  norm_num [emitLoop_stop buffer 4 (by norm_num), Nat.shiftRight_eq_div_pow]

theorem emitLoop_12 (buffer : ℕ) :
    emitLoop buffer 12 = ([(buffer / 64) % 64, buffer % 64], 0) := by
  rw [emitLoop_step buffer 12 (by norm_num)]
  rw [show (12 : ℕ) - 6 = 6 from rfl]
  rw [emitLoop_step buffer 6 (by norm_num)]
  norm_num [emitLoop_stop buffer 0 (by norm_num), Nat.shiftRight_eq_div_pow]

theorem finishIdxs_append (xs ys : List ℕ) (p : ℕ × ℕ) :
    finishIdxs (xs ++ ys, p) = xs ++ finishIdxs (ys, p) := by
  rcases p with ⟨bufferF, bitsF⟩
  simp [finishIdxs, List.append_assoc]

theorem encodeGo_cons (byte : ℕ) (rest : List ℕ) (buffer bits : ℕ) :
    encodeGo (byte :: rest) buffer bits =
      ((emitLoop ((buffer * 256) % 4294967296 + byte) (bits + 8)).1 ++
        (encodeGo rest ((buffer * 256) % 4294967296 + byte)
          (emitLoop ((buffer * 256) % 4294967296 + byte) (bits + 8)).2).1,
        (encodeGo rest ((buffer * 256) % 4294967296 + byte)
          (emitLoop ((buffer * 256) % 4294967296 + byte) (bits + 8)).2).2) :=
  rfl

theorem encodeGo_block (b1 b2 b3 : ℕ) (rest : List ℕ) (buffer : ℕ) :
    encodeGo (b1 :: b2 :: b3 :: rest) buffer 0 =
      (((((buffer * 256) % 4294967296 + b1) / 4) % 64 ::
        ((((((buffer * 256) % 4294967296 + b1) * 256) % 4294967296 + b2) /
          16) % 64) ::
        ((((((((buffer * 256) % 4294967296 + b1) * 256) % 4294967296 + b2) *
          256) % 4294967296 + b3) / 64) % 64) ::
        (((((((buffer * 256) % 4294967296 + b1) * 256) % 4294967296 + b2) *
          256) % 4294967296 + b3) % 64) ::
        (encodeGo rest
          ((((((buffer * 256) % 4294967296 + b1) * 256) % 4294967296 + b2) *
            256) % 4294967296 + b3) 0).1),
        (encodeGo rest
          ((((((buffer * 256) % 4294967296 + b1) * 256) % 4294967296 + b2) *
            256) % 4294967296 + b3) 0).2) := by
  rw [encodeGo_cons]
  rw [show (0 : ℕ) + 8 = 8 from rfl, emitLoop_8]
  dsimp only
  rw [encodeGo_cons]
  rw [show (2 : ℕ) + 8 = 10 from rfl, emitLoop_10]
  dsimp only
  rw [encodeGo_cons]
  rw [show (4 : ℕ) + 8 = 12 from rfl, emitLoop_12]
  dsimp only
  simp [List.cons_append, List.nil_append]

theorem encodeIdxs_block (b1 b2 b3 : ℕ) (rest : List ℕ) (buffer : ℕ) :
    encodeIdxs (b1 :: b2 :: b3 :: rest) buffer =
      ((((buffer * 256) % 4294967296 + b1) / 4) % 64 ::
        ((((((buffer * 256) % 4294967296 + b1) * 256) % 4294967296 + b2) /
          16) % 64) ::
        ((((((((buffer * 256) % 4294967296 + b1) * 256) % 4294967296 + b2) *
          256) % 4294967296 + b3) / 64) % 64) ::
        (((((((buffer * 256) % 4294967296 + b1) * 256) % 4294967296 + b2) *
          256) % 4294967296 + b3) % 64) ::
        encodeIdxs rest
          ((((((buffer * 256) % 4294967296 + b1) * 256) % 4294967296 + b2) *
            256) % 4294967296 + b3)) := by
  unfold encodeIdxs
  rw [encodeGo_block]
  rw [show ∀ (a b c d : ℕ) (l : List ℕ), a :: b :: c :: d :: l =
    [a, b, c, d] ++ l from fun a b c d l => rfl]
  rw [finishIdxs_append]
  rfl

theorem decodeVals_block (v1 v2 v3 v4 : ℕ) (rest : List ℕ) :
    decodeVals (v1 :: v2 :: v3 :: v4 :: rest) =
      (decodeVals rest).map
        (fun bs => (v1 * 4 + v2 / 16) :: ((v2 % 16) * 16 + v3 / 4) ::
          ((v3 % 4) * 64 + v4) :: bs) :=
  rfl

theorem list1_eq (x a : ℕ) (h : x = a) : [x] = [a] := by rw [h]

theorem list2_eq (x y a b : ℕ) (h1 : x = a) (h2 : y = b) :
    [x, y] = [a, b] := by rw [h1, h2]

theorem cons3_eq (x y z a b c : ℕ) (l : List ℕ) (h1 : x = a) (h2 : y = b)
    (h3 : z = c) : x :: y :: z :: l = a :: b :: c :: l := by rw [h1, h2, h3]

theorem encodeIdxs_decode :
    ∀ (data : List ℕ), (∀ b ∈ data, b < 256) → ∀ buffer : ℕ,
      decodeVals (encodeIdxs data buffer) = some data
  | [], _, buffer => by
    unfold encodeIdxs encodeGo finishIdxs
    norm_num [decodeVals]
  | [b1], h, buffer => by
    have hb1 : b1 < 256 := h b1 (by simp)
    unfold encodeIdxs
    rw [encodeGo_cons]
    rw [show (0 : ℕ) + 8 = 8 from rfl, emitLoop_8]
    dsimp only
    unfold encodeGo finishIdxs
    dsimp only
    rw [if_pos (by norm_num : (0 : ℕ) < 2)]
    rw [show (6 : ℕ) - 2 = 4 from rfl]
    simp only [List.cons_append, List.nil_append]
    rw [show decodeVals
      [(((buffer * 256) % 4294967296 + b1) / 4) % 64,
        ((((buffer * 256) % 4294967296 + b1) * 2 ^ 4) % 4294967296) % 64] =
      some [((((buffer * 256) % 4294967296 + b1) / 4) % 64) * 4 +
        (((((buffer * 256) % 4294967296 + b1) * 2 ^ 4) % 4294967296) % 64) /
          16] from rfl]
    exact congrArg some (list1_eq _ _ (by omega))
  | [b1, b2], h, buffer => by
    have hb1 : b1 < 256 := h b1 (by simp)
    have hb2 : b2 < 256 := h b2 (by simp)
    unfold encodeIdxs
    rw [encodeGo_cons]
    rw [show (0 : ℕ) + 8 = 8 from rfl, emitLoop_8]
    dsimp only
    rw [encodeGo_cons]
    rw [show (2 : ℕ) + 8 = 10 from rfl, emitLoop_10]
    dsimp only
    unfold encodeGo finishIdxs
    dsimp only
    rw [if_pos (by norm_num : (0 : ℕ) < 4)]
    rw [show (6 : ℕ) - 4 = 2 from rfl]
    simp only [List.cons_append, List.nil_append]
    rw [show ∀ (v1 v2 v3 : ℕ), decodeVals [v1, v2, v3] =
      some [v1 * 4 + v2 / 16, (v2 % 16) * 16 + v3 / 4] from
      fun v1 v2 v3 => rfl]
    exact congrArg some (list2_eq _ _ _ _ (by omega) (by omega))
  | b1 :: b2 :: b3 :: rest, h, buffer => by
    have hb1 : b1 < 256 := h b1 (by simp)
    have hb2 : b2 < 256 := h b2 (by simp)
    have hb3 : b3 < 256 := h b3 (by simp)
    have ih := encodeIdxs_decode rest
      (fun b hb => h b (by simp [hb]))
      ((((((buffer * 256) % 4294967296 + b1) * 256) % 4294967296 + b2) *
        256) % 4294967296 + b3)
    rw [encodeIdxs_block, decodeVals_block, ih]
    rw [Option.map_some']
    exact congrArg some
      (cons3_eq _ _ _ _ _ _ rest (by omega) (by omega) (by omega))

theorem emitLoop_lt (buffer : ℕ) (bits : ℕ) :
    ∀ i ∈ (emitLoop buffer bits).1, i < 64 := by
  induction bits using Nat.strong_induction_on with
  | _ bits ih =>
    intro i hi
    by_cases h : 6 ≤ bits
    · rw [emitLoop_step buffer bits h] at hi
      rcases List.mem_cons.mp hi with hi | hi
      · rw [hi]
        exact Nat.mod_lt _ (by norm_num)
      · exact ih (bits - 6) (by omega) i hi
    · rw [emitLoop_stop buffer bits (by omega)] at hi
      cases hi

theorem encodeGo_lt :
    ∀ (data : List ℕ) (buffer bits : ℕ), ∀ i ∈ (encodeGo data buffer bits).1,
      i < 64
  | [], buffer, bits => by
    intro i hi
    cases hi
  | byte :: rest, buffer, bits => by
    intro i hi
    rw [encodeGo_cons] at hi
    rcases List.mem_append.mp hi with hi | hi
    · exact emitLoop_lt _ _ i hi
    · exact encodeGo_lt rest _ _ i hi

theorem encodeIdxs_lt (data : List ℕ) (buffer : ℕ) :
    ∀ i ∈ encodeIdxs data buffer, i < 64 := by
  intro i hi
  unfold encodeIdxs finishIdxs at hi
  rcases he : encodeGo data buffer 0 with ⟨idxs, bufF, bitsF⟩
  rw [he] at hi
  rcases List.mem_append.mp hi with hi | hi
  · refine encodeGo_lt data buffer 0 i ?_
    rw [he]
    exact hi
  · by_cases h0 : bitsF = 0
    · rw [if_neg (by omega)] at hi
      cases hi
    · rw [if_pos (by omega)] at hi
      rw [List.mem_singleton.mp hi]
      exact Nat.mod_lt _ (by norm_num)

theorem getD_mem_of_lt {α : Type} (l : List α) (i : ℕ) (d : α)
    (h : i < l.length) : l.getD i d ∈ l := by
  induction l generalizing i with
  | nil => cases h
  | cons x xs ih =>
    rcases i with _ | j
    · exact List.mem_cons_self x xs
    · rw [List.getD_cons_succ]
      exact List.mem_cons_of_mem x (ih j (by simpa using h))

theorem charValue_getD : ∀ i < 64, charValue (ALPHABET.getD i ' ') = some i := by
  decide

theorem mapValues_map (idxs : List ℕ) (h : ∀ i ∈ idxs, i < 64) :
    mapValues (idxs.map (fun idx => ALPHABET.getD idx ' ')) = some idxs := by
  induction idxs with
  | nil => rfl
  | cons i rest ih =>
    rw [List.map_cons]
    unfold mapValues
    rw [charValue_getD i (h i (List.mem_cons_self i rest)),
      ih (fun j hj => h j (List.mem_cons_of_mem i hj))]
    rfl

/-- Claim C8: `base64_encode` emits only characters of the 64-character
URL-safe alphabet A–Z a–z 0–9 '-' '_', never the '=' padding character,
and the corresponding base64url decoder (modelled from the spec, §4.3)
recovers the original bytes from the encoder's output. -/
theorem base64_encode_spec (data : List ℕ) (h : ∀ b ∈ data, b < 256) :
    (∀ c ∈ base64_encode data, c ∈ ALPHABET ∧ c ≠ '=') ∧
    base64_decode (base64_encode data) = some data := by
  have hlt := encodeIdxs_lt data 0
  constructor
  · intro c hc
    rcases List.mem_map.mp hc with ⟨i, hi, hceq⟩
    have hmem : c ∈ ALPHABET := by
      rw [← hceq]
      exact getD_mem_of_lt _ _ _
        (by rw [show ALPHABET.length = 64 from rfl]; exact hlt i hi)
    refine ⟨hmem, ?_⟩
    intro heq
    rw [heq] at hmem
    exact absurd hmem (by decide)
  · unfold base64_decode base64_encode
    rw [mapValues_map _ hlt]
    exact encodeIdxs_decode data h 0

theorem base64_encode_spec_witness :
    (∀ b ∈ [0, 255, 77, 3], b < 256) ∧
    ((∀ c ∈ base64_encode [0, 255, 77, 3], c ∈ ALPHABET ∧ c ≠ '=') ∧
      base64_decode (base64_encode [0, 255, 77, 3]) = some [0, 255, 77, 3]) :=
  ⟨by decide, base64_encode_spec [0, 255, 77, 3] (by decide)⟩

/-! ## Store persistence round trip (C9)

### Feature Store, byte level (`AnalysisStore::save`/`load`,
`src/analysis_store.rs`)

`bincode::serialize` of `AnalysisStore { data: HashMap<PathBuf, Vec<f32>> }`
writes a little-endian `u64` entry count followed by, per entry, the
path as a `u64` length plus its UTF-8 bytes and the vector as a `u64`
length plus four little-endian bytes per `f32`.  An entry is modelled as
(key bytes, f32 bit patterns); the entry list is the map in the
`HashMap`'s (unspecified) iteration order. -/

/-- Little-endian `u64`. -/
def u64le (n : ℕ) : List ℕ :=
  [n % 256, n / 256 % 256, n / 65536 % 256, n / 16777216 % 256,
    n / 4294967296 % 256, n / 1099511627776 % 256,
    n / 281474976710656 % 256, n / 72057594037927936 % 256]

/-- Little-endian `u32` (an `f32` bit pattern). -/
def u32le (w : ℕ) : List ℕ :=
  [w % 256, w / 256 % 256, w / 65536 % 256, w / 16777216 % 256]

/-- `AnalysisStore::save`: the bincode encoding of the store's entries in
iteration order. -/
def analysis_save (entries : List (List ℕ × List ℕ)) : List ℕ :=
  u64le entries.length ++
    entries.flatMap (fun e =>
      u64le e.1.length ++ e.1 ++ u64le e.2.length ++ e.2.flatMap u32le)

def read8 : List ℕ → Option (ℕ × List ℕ)
  | b0 :: b1 :: b2 :: b3 :: b4 :: b5 :: b6 :: b7 :: rest =>
    some (b0 + 256 * b1 + 65536 * b2 + 16777216 * b3 + 4294967296 * b4 +
      1099511627776 * b5 + 281474976710656 * b6 +
      72057594037927936 * b7, rest)
  | _ => none

def read4 : List ℕ → Option (ℕ × List ℕ)
  | b0 :: b1 :: b2 :: b3 :: rest =>
    some (b0 + 256 * b1 + 65536 * b2 + 16777216 * b3, rest)
  | _ => none

def readBytes : ℕ → List ℕ → Option (List ℕ × List ℕ)
  | 0, bytes => some ([], bytes)
  | _ + 1, [] => none
  | k + 1, b :: rest => (readBytes k rest).map (fun r => (b :: r.1, r.2))

def readWords : ℕ → List ℕ → Option (List ℕ × List ℕ)
  | 0, bytes => some ([], bytes)
  | k + 1, bytes =>
    (read4 bytes).bind (fun w =>
      (readWords k w.2).map (fun r => (w.1 :: r.1, r.2)))

def decodeEntries : ℕ → List ℕ → Option (List (List ℕ × List ℕ) × List ℕ)
  | 0, bytes => some ([], bytes)
  | k + 1, bytes =>
    (read8 bytes).bind (fun nk =>
      (readBytes nk.1 nk.2).bind (fun key =>
        (read8 key.2).bind (fun nv =>
          (readWords nv.1 nv.2).bind (fun ws =>
            (decodeEntries k ws.2).map (fun r =>
              ((key.1, ws.1) :: r.1, r.2))))))

/-- `AnalysisStore::load`: bincode deserialization of the entry list. -/
def analysis_load (bytes : List ℕ) : Option (List (List ℕ × List ℕ)) :=
  (read8 bytes).bind (fun n => (decodeEntries n.1 n.2).map (fun r => r.1))

/-- The invariants bincode's types guarantee on a real store: lengths fit
`u64`, path bytes fit `u8`, `f32` bit patterns fit `u32`. -/
def validEntries (entries : List (List ℕ × List ℕ)) : Prop :=
  entries.length < 18446744073709551616 ∧
    ∀ e ∈ entries, e.1.length < 18446744073709551616 ∧
      (∀ b ∈ e.1, b < 256) ∧ e.2.length < 18446744073709551616 ∧
      ∀ w ∈ e.2, w < 4294967296

instance (entries : List (List ℕ × List ℕ)) :
    Decidable (validEntries entries) := by
  unfold validEntries
  infer_instance

theorem read8_u64le (n : ℕ) (rest : List ℕ)
    (h : n < 18446744073709551616) :
    read8 (u64le n ++ rest) = some (n, rest) := by
  show read8 (n % 256 :: n / 256 % 256 :: n / 65536 % 256 ::
    n / 16777216 % 256 :: n / 4294967296 % 256 ::
    n / 1099511627776 % 256 :: n / 281474976710656 % 256 ::
    n / 72057594037927936 % 256 :: rest) = some (n, rest)
  unfold read8
  exact congrArg (fun k => some (k, rest)) (by omega)

theorem read4_u32le (w : ℕ) (rest : List ℕ) (h : w < 4294967296) :
    read4 (u32le w ++ rest) = some (w, rest) := by
  show read4 (w % 256 :: w / 256 % 256 :: w / 65536 % 256 ::
    w / 16777216 % 256 :: rest) = some (w, rest)
  unfold read4
  exact congrArg (fun k => some (k, rest)) (by omega)

theorem readBytes_roundtrip (l rest : List ℕ) :
    readBytes l.length (l ++ rest) = some (l, rest) := by
  induction l with
  | nil => rfl
  | cons b bs ih =>
    show readBytes (bs.length + 1) (b :: (bs ++ rest)) = some (b :: bs, rest)
    unfold readBytes
    rw [ih]
    rfl

theorem readWords_roundtrip (ws rest : List ℕ) (h : ∀ w ∈ ws, w < 4294967296) :
    readWords ws.length (ws.flatMap u32le ++ rest) = some (ws, rest) := by
  induction ws with
  | nil => rfl
  | cons w ws2 ih =>
    show readWords (ws2.length + 1) ((u32le w ++ ws2.flatMap u32le) ++ rest) =
      some (w :: ws2, rest)
    unfold readWords
    rw [List.append_assoc, read4_u32le w _ (h w (List.mem_cons_self w ws2))]
    simp only [Option.some_bind]
    rw [ih (fun x hx => h x (List.mem_cons_of_mem w hx))]
    rfl

theorem decodeEntries_roundtrip (entries : List (List ℕ × List ℕ))
    (rest : List ℕ) (h : validEntries entries) :
    decodeEntries entries.length
      ((entries.flatMap (fun e =>
        u64le e.1.length ++ e.1 ++ u64le e.2.length ++ e.2.flatMap u32le)) ++
        rest) = some (entries, rest) := by
  induction entries with
  | nil => rfl
  | cons e es ih =>
    have he := h.2 e (List.mem_cons_self e es)
    have hes : validEntries es :=
      ⟨by have := h.1; simp only [List.length_cons] at this; omega,
        fun x hx => h.2 x (List.mem_cons_of_mem e hx)⟩
    show decodeEntries (es.length + 1)
      (((u64le e.1.length ++ e.1 ++ u64le e.2.length ++ e.2.flatMap u32le) ++
        es.flatMap _) ++ rest) = some (e :: es, rest)
    unfold decodeEntries
    rw [show ((u64le e.1.length ++ e.1 ++ u64le e.2.length ++
        e.2.flatMap u32le) ++ es.flatMap (fun e =>
          u64le e.1.length ++ e.1 ++ u64le e.2.length ++ e.2.flatMap u32le)) ++
        rest =
      u64le e.1.length ++ (e.1 ++ (u64le e.2.length ++ (e.2.flatMap u32le ++
        (es.flatMap (fun e => u64le e.1.length ++ e.1 ++ u64le e.2.length ++
          e.2.flatMap u32le) ++ rest)))) by
      simp [List.append_assoc]]
    rw [read8_u64le _ _ he.1]
    simp only [Option.some_bind]
    rw [readBytes_roundtrip]
    simp only [Option.some_bind]
    rw [read8_u64le _ _ he.2.2.1]
    simp only [Option.some_bind]
    rw [readWords_roundtrip _ _ he.2.2.2]
    simp only [Option.some_bind]
    rw [ih hes]
    rfl

/-! ### Index Store, JSON AST level (`AudioLibrary::save`/`load`,
`src/storage.rs`)

`serde_json::to_string_pretty` / `serde_json::from_str` are modelled at
the level of the JSON value tree: the pretty-printer is injective on
values and parsing inverts printing, so the byte file is represented by
its `Json` tree (object member order preserved, as in the file).  `u64`
fields persist as JSON numbers, `f32`/`f64` as exact `ℚ` numbers,
`Option` as `null`-or-value, `genres` as an array of `[label, confidence]`
pairs — the serde derive layout of `IndexedTrack`/`TrackMetadata`. -/

inductive Json : Type
  | null : Json
  | num (q : ℚ) : Json
  | str (s : String) : Json
  | arr (xs : List Json) : Json
  | obj (fields : List (String × Json)) : Json

def optStrToJson : Option String → Json
  | none => .null
  | some s => .str s

def genreToJson (g : String × ℚ) : Json :=
  .arr [.str g.1, .num g.2]

/-- Serde serialization of `TrackMetadata`: an object with the fields in
declaration order. -/
def metadataToJson (m : TrackMetadata) : Json :=
  .obj [("title", .str m.title), ("artist", .str m.artist),
    ("album", optStrToJson m.album),
    ("original_artist", optStrToJson m.original_artist),
    ("original_title", optStrToJson m.original_title),
    ("duration", .num m.duration),
    ("fingerprint", optStrToJson m.fingerprint),
    ("genres", .arr (m.genres.map genreToJson))]

/-- Serde serialization of `IndexedTrack`. -/
def trackToJson (t : IndexedTrack String) : Json :=
  .obj [("path", .str t.path), ("file_size", .num (t.file_size : ℚ)),
    ("modified_time", .num (t.modified_time : ℚ)),
    ("scanned_at", .num (t.scanned_at : ℚ)),
    ("metadata", metadataToJson t.metadata)]

/-- `AudioLibrary::save`: `{ "files": { path: track, ... } }` with the
map entries in iteration order. -/
def libraryToJson (lib : AudioLibrary String) : Json :=
  .obj [("files", .obj (lib.map (fun e => (e.1, trackToJson e.2))))]

/-- Serde field access: first member with the given name. -/
def jsonLookup (fields : List (String × Json)) (k : String) : Option Json :=
  lookupA fields k

def parseStr : Json → Option String
  | .str s => some s
  | _ => none

def parseNat : Json → Option ℕ
  | .num q => if q.den = 1 ∧ 0 ≤ q.num then some q.num.toNat else none
  | _ => none

def parseQ : Json → Option ℚ
  | .num q => some q
  | _ => none

def parseOptStr : Json → Option (Option String)
  | .null => some none
  | .str s => some (some s)
  | _ => none

def parseGenre : Json → Option (String × ℚ)
  | .arr [.str s, .num q] => some (s, q)
  | _ => none

def parseList {α : Type} (f : Json → Option α) : List Json → Option (List α)
  | [] => some []
  | x :: rest => (f x).bind (fun a => (parseList f rest).map (fun l => a :: l))

def parseGenres : Json → Option (List (String × ℚ))
  | .arr xs => parseList parseGenre xs
  | _ => none

/-- Serde deserialization of an `Option<String>` field: absent means
`None`. -/
def parseFieldOptStr (fields : List (String × Json)) (k : String) :
    Option (Option String) :=
  match jsonLookup fields k with
  | none => some none
  | some j => parseOptStr j

/-- Serde deserialization of the `#[serde(default)]` `genres` field:
absent means empty. -/
def parseFieldGenres (fields : List (String × Json)) :
    Option (List (String × ℚ)) :=
  match jsonLookup fields "genres" with
  | none => some []
  | some j => parseGenres j

/-- Serde deserialization of `TrackMetadata`. -/
def metadataFromJson : Json → Option TrackMetadata
  | .obj fields =>
    ((jsonLookup fields "title").bind parseStr).bind (fun title =>
    ((jsonLookup fields "artist").bind parseStr).bind (fun artist =>
    (parseFieldOptStr fields "album").bind (fun album =>
    (parseFieldOptStr fields "original_artist").bind (fun original_artist =>
    (parseFieldOptStr fields "original_title").bind (fun original_title =>
    ((jsonLookup fields "duration").bind parseQ).bind (fun duration =>
    (parseFieldOptStr fields "fingerprint").bind (fun fingerprint =>
    (parseFieldGenres fields).map (fun genres =>
    ⟨title, artist, album, original_artist, original_title, duration,
      fingerprint, genres⟩))))))))
  | _ => none

/-- Serde deserialization of `IndexedTrack`. -/
def trackFromJson : Json → Option (IndexedTrack String)
  | .obj fields =>
    ((jsonLookup fields "path").bind parseStr).bind (fun path =>
    ((jsonLookup fields "file_size").bind parseNat).bind (fun file_size =>
    ((jsonLookup fields "modified_time").bind parseNat).bind
      (fun modified_time =>
    ((jsonLookup fields "scanned_at").bind parseNat).bind (fun scanned_at =>
    ((jsonLookup fields "metadata").bind metadataFromJson).map (fun metadata =>
    ⟨path, file_size, modified_time, scanned_at, metadata⟩)))))
  | _ => none

def parseTracks : List (String × Json) → Option (AudioLibrary String)
  | [] => some []
  | (k, v) :: rest =>
    (trackFromJson v).bind (fun t =>
      (parseTracks rest).map (fun l => (k, t) :: l))

/-- `AudioLibrary::load`: parse the `files` object into the map. -/
def libraryFromJson : Json → Option (AudioLibrary String)
  | .obj fields =>
    (jsonLookup fields "files").bind (fun fj =>
      match fj with
      | .obj entries => parseTracks entries
      | _ => none)
  | _ => none

theorem parseOptStr_round (o : Option String) :
    parseOptStr (optStrToJson o) = some o := by
  cases o <;> rfl

theorem parseGenre_round (g : String × ℚ) :
    parseGenre (genreToJson g) = some g := rfl

theorem parseGenres_map (gs : List (String × ℚ)) :
    parseList parseGenre (gs.map genreToJson) = some gs := by
  induction gs with
  | nil => rfl
  | cons g rest ih =>
    rw [List.map_cons]
    unfold parseList
    rw [parseGenre_round, ih]
    rfl

theorem parseNat_cast (n : ℕ) : parseNat (.num (n : ℚ)) = some n := by
  show (if ((n : ℚ)).den = 1 ∧ 0 ≤ ((n : ℚ)).num then
    some ((n : ℚ)).num.toNat else none) = some n
  rw [if_pos ⟨Rat.den_natCast n,
    by rw [Rat.num_natCast]; exact Int.ofNat_nonneg n⟩]
  rw [Rat.num_natCast]
  rfl

theorem metadataFromJson_round (m : TrackMetadata) :
    metadataFromJson (metadataToJson m) = some m := by
  rcases m with ⟨t, a, al, oa, ot, d, f, g⟩
  have h : metadataFromJson (metadataToJson ⟨t, a, al, oa, ot, d, f, g⟩) =
      (parseOptStr (optStrToJson al)).bind (fun album =>
      (parseOptStr (optStrToJson oa)).bind (fun original_artist =>
      (parseOptStr (optStrToJson ot)).bind (fun original_title =>
      (parseOptStr (optStrToJson f)).bind (fun fingerprint =>
      (parseList parseGenre (g.map genreToJson)).map (fun genres =>
      ⟨t, a, album, original_artist, original_title, d, fingerprint,
        genres⟩))))) := rfl
  rw [h, parseOptStr_round, parseOptStr_round, parseOptStr_round,
    parseOptStr_round, parseGenres_map]
  rfl

theorem trackFromJson_round (t : IndexedTrack String) :
    trackFromJson (trackToJson t) = some t := by
  rcases t with ⟨p, fs, mt, sa, m⟩
  have h : trackFromJson (trackToJson ⟨p, fs, mt, sa, m⟩) =
      (parseNat (.num (fs : ℚ))).bind (fun file_size =>
      (parseNat (.num (mt : ℚ))).bind (fun modified_time =>
      (parseNat (.num (sa : ℚ))).bind (fun scanned_at =>
      (metadataFromJson (metadataToJson m)).map (fun metadata =>
      ⟨p, file_size, modified_time, scanned_at, metadata⟩)))) := rfl
  rw [h, parseNat_cast, parseNat_cast, parseNat_cast, metadataFromJson_round]
  rfl

theorem parseTracks_round (lib : AudioLibrary String) :
    parseTracks (lib.map (fun e => (e.1, trackToJson e.2))) = some lib := by
  induction lib with
  | nil => rfl
  | cons e rest ih =>
    rcases e with ⟨k, t⟩
    rw [List.map_cons]
    unfold parseTracks
    rw [trackFromJson_round, ih]
    rfl

theorem libraryFromJson_round (lib : AudioLibrary String) :
    libraryFromJson (libraryToJson lib) = some lib := by
  have h : libraryFromJson (libraryToJson lib) =
      parseTracks (lib.map (fun e => (e.1, trackToJson e.2))) := rfl
  rw [h, parseTracks_round]

/-- Two single-byte-path entries used by the C9 counterexample. -/
def entryA : List ℕ × List ℕ := ([0], [])

def entryB : List ℕ × List ℕ := ([1], [])

/-- Claim C9 counterexample: `s0` is a persisted Feature Store holding
the two entries A and B in this order.  Loading it yields exactly those
entries, but Rust's `HashMap` iteration order is unspecified, so the
re-save may emit them as B, A — a byte string different from `s0` even
though it still loads to the same two entries.  `Save(Load(s))` is
therefore not byte-identical to `s` in general. -/
theorem save_load_counterexample :
    analysis_load (analysis_save [entryA, entryB]) = some [entryA, entryB] ∧
    analysis_save [entryB, entryA] ≠ analysis_save [entryA, entryB] ∧
    analysis_load (analysis_save [entryB, entryA]) = some [entryB, entryA] ∧
    [entryB, entryA] ≠ [entryA, entryB] ∧
    ([entryB, entryA]).Perm [entryA, entryB] := by
  refine ⟨by decide, by decide, by decide, by decide, by decide⟩

/-- Claim C9 (amended): loading a persisted store and saving it again
reproduces a store with exactly the same content — for both stores,
`Load(Save(Load(s)))` equals `Load(s)`; byte-for-byte identity holds only
up to the unspecified iteration order of the `HashMap` entries, since
`Save` serializes whatever entry order the reloaded map iterates in.
Concretely: decoding inverts encoding for any entry list of the Feature
Store, and parsing inverts serialization for any Index Store value. -/
theorem save_load_roundtrip :
    (∀ entries : List (List ℕ × List ℕ), validEntries entries →
      analysis_load (analysis_save entries) = some entries) ∧
    (∀ lib : AudioLibrary String, libraryFromJson (libraryToJson lib) = some lib) := by
  constructor
  · intro entries h
    unfold analysis_load analysis_save
    rw [read8_u64le _ _ h.1]
    simp only [Option.some_bind]
    rw [show entries.flatMap (fun e => u64le e.1.length ++ e.1 ++
        u64le e.2.length ++ e.2.flatMap u32le) =
      entries.flatMap (fun e => u64le e.1.length ++ e.1 ++
        u64le e.2.length ++ e.2.flatMap u32le) ++ [] from
      (List.append_nil _).symm]
    rw [decodeEntries_roundtrip entries [] h]
    rfl
  · exact libraryFromJson_round

/-- A one-track library and a one-entry feature store for the C9
witness. -/
def entriesW : List (List ℕ × List ℕ) := [([47, 97], [1065353216, 0])]

def libraryW9 : AudioLibrary String :=
  [("/a", { path := "/a", file_size := 10, modified_time := 20,
            scanned_at := 30, metadata := metaW })]

theorem save_load_roundtrip_witness :
    validEntries entriesW ∧
    analysis_load (analysis_save entriesW) = some entriesW ∧
    libraryFromJson (libraryToJson libraryW9) = some libraryW9 :=
  ⟨by decide,
    save_load_roundtrip.1 entriesW (by decide),
    save_load_roundtrip.2 libraryW9⟩
